import Mathlib

/-!
Verification of the attestation-aggregation and epoch-span-store design of
the prysm repository.  The repository sources available here contain only
the test suites (attestation_aggregation_test.go, epoch_store_test.go);
the implementations themselves (beacon-chain/core/helpers
attestation_aggregation.go and slasher/.../types/epoch_store.go) are not
present, so the operations below are modelled from the design spec and
checked against the concrete vectors pinned by the test files.
-/

namespace Prysm

/-! ### BitVector primitive

A participation bit-vector is modelled as a `List Bool` whose list length
is exactly the declared bit count of the vector. -/

/-- Modelled from the spec: BitVector `get`, reading bit `i` (false beyond the
declared length). -/
def getBit (l : List Bool) (i : Nat) : Bool :=
  l.getD i false

/-- Modelled from the spec: BitVector `bitwiseOr`; only used on operands of
equal declared length. -/
def orBits (x y : List Bool) : List Bool :=
  List.zipWith or x y

/-- Modelled from the spec: BitVector `overlaps`, true iff some index is set in
both operands; only used on operands of equal declared length. -/
def overlapsB (x y : List Bool) : Bool :=
  (List.zipWith and x y).any id

/-- Modelled from the spec: BitVector `isSubsetOf`, requiring equal declared
lengths and every set bit of the first to be set in the second. -/
def subsetB (x y : List Bool) : Bool :=
  x.length == y.length && (List.zipWith (fun u v => !u || v) x y).all id

/-- Modelled from the spec: strict subset of equal-length bit patterns: a
subset whose pattern is not identical. -/
def properSubB (x y : List Bool) : Bool :=
  subsetB x y && x != y

/-- Modelled from the spec: BitVector `popcount`, the number of set bits. -/
def popcount (x : List Bool) : Nat :=
  x.count true

/-! #### BitVector lemmas -/

theorem getBit_nil (i : Nat) : getBit [] i = false := by
  simp [getBit]

theorem getBit_cons_zero (a : Bool) (l : List Bool) : getBit (a :: l) 0 = a := rfl

theorem getBit_cons_succ (a : Bool) (l : List Bool) (n : Nat) :
    getBit (a :: l) (n + 1) = getBit l n := rfl

theorem getBit_eq_false_of_le (l : List Bool) (i : Nat) (h : l.length ≤ i) :
    getBit l i = false := by
  simp [getBit, List.getD_eq_getElem?_getD, List.getElem?_eq_none h]

theorem length_orBits (x y : List Bool) (h : x.length = y.length) :
    (orBits x y).length = x.length := by
  simp [orBits, h]

theorem getBit_orBits (x y : List Bool) (h : x.length = y.length) (i : Nat) :
    getBit (orBits x y) i = (getBit x i || getBit y i) := by
  induction x generalizing y i with
  | nil =>
    cases y with
    | nil => simp [orBits, getBit]
    | cons b ys => simp at h
  | cons a xs ih =>
    cases y with
    | nil => simp at h
    | cons b ys =>
      simp only [List.length_cons, Nat.succ.injEq] at h
      cases i with
      | zero => simp [orBits, getBit]
      | succ n =>
        simpa [orBits, getBit_cons_succ] using ih ys h n

theorem overlapsB_iff (x y : List Bool) :
    overlapsB x y = true ↔ ∃ i, getBit x i = true ∧ getBit y i = true := by
  induction x generalizing y with
  | nil =>
    simp only [overlapsB, List.zipWith_nil_left, List.any_nil]
    constructor
    · intro h; cases h
    · rintro ⟨i, hx, _⟩; simp [getBit_nil] at hx
  | cons a xs ih =>
    cases y with
    | nil =>
      simp only [overlapsB, List.zipWith_nil_right, List.any_nil]
      constructor
      · intro h; cases h
      · rintro ⟨i, _, hy⟩; simp [getBit_nil] at hy
    | cons b ys =>
      simp only [overlapsB, List.zipWith_cons_cons, List.any_cons, Bool.or_eq_true, id] at *
      constructor
      · rintro (hab | h)
        · exact ⟨0, by simpa [getBit_cons_zero] using hab⟩
        · obtain ⟨i, hx, hy⟩ := (ih ys).mp h
          exact ⟨i + 1, by simpa [getBit_cons_succ] using hx,
            by simpa [getBit_cons_succ] using hy⟩
      · rintro ⟨i, hx, hy⟩
        cases i with
        | zero =>
          left
          rw [getBit_cons_zero] at hx hy
          simp [hx, hy]
        | succ n =>
          right
          refine (ih ys).mpr ⟨n, ?_, ?_⟩
          · simpa [getBit_cons_succ] using hx
          · simpa [getBit_cons_succ] using hy

theorem overlapsB_comm (x y : List Bool) : overlapsB x y = overlapsB y x := by
  rcases hxy : overlapsB x y with _ | _ <;> rcases hyx : overlapsB y x with _ | _ <;> try rfl
  · obtain ⟨i, h1, h2⟩ := (overlapsB_iff y x).mp hyx
    have := (overlapsB_iff x y).mpr ⟨i, h2, h1⟩
    rw [this] at hxy; cases hxy
  · obtain ⟨i, h1, h2⟩ := (overlapsB_iff x y).mp hxy
    have := (overlapsB_iff y x).mpr ⟨i, h2, h1⟩
    rw [this] at hyx; cases hyx

theorem subsetB_iff (x y : List Bool) :
    subsetB x y = true ↔
      x.length = y.length ∧ ∀ i, getBit x i = true → getBit y i = true := by
  induction x generalizing y with
  | nil =>
    cases y with
    | nil => simp [subsetB, getBit_nil]
    | cons b ys =>
      simp only [subsetB]
      constructor
      · intro h; simp at h
      · rintro ⟨h, _⟩; simp at h
  | cons a xs ih =>
    cases y with
    | nil =>
      simp only [subsetB]
      constructor
      · intro h; simp at h
      · rintro ⟨h, _⟩; simp at h
    | cons b ys =>
      constructor
      · intro h
        simp only [subsetB, Bool.and_eq_true, beq_iff_eq, List.length_cons, Nat.succ.injEq,
          List.zipWith_cons_cons, List.all_cons, id] at h
        obtain ⟨hlen, hhead, htail⟩ := h
        have htl := (ih ys).mp (by simp [subsetB, hlen, htail])
        refine ⟨by simp [hlen], ?_⟩
        intro i hi
        cases i with
        | zero =>
          rw [getBit_cons_zero] at hi ⊢
          cases a with
          | false => cases hi
          | true => simpa using hhead
        | succ n =>
          rw [getBit_cons_succ] at hi ⊢
          exact htl.2 n hi
      · rintro ⟨hlen, hbits⟩
        simp only [List.length_cons, Nat.succ.injEq] at hlen
        have htl : subsetB xs ys = true := by
          refine (ih ys).mpr ⟨hlen, ?_⟩
          intro i hi
          have := hbits (i + 1) (by simpa [getBit_cons_succ] using hi)
          simpa [getBit_cons_succ] using this
        simp only [subsetB, Bool.and_eq_true, beq_iff_eq] at htl ⊢
        refine ⟨by simp [hlen], ?_⟩
        simp only [List.zipWith_cons_cons, List.all_cons, Bool.and_eq_true, id]
        refine ⟨?_, htl.2⟩
        cases a with
        | false => simp
        | true =>
          have := hbits 0 (by simp [getBit_cons_zero])
          rw [getBit_cons_zero] at this
          simp [this]

theorem subsetB_refl (x : List Bool) : subsetB x x = true := by
  exact (subsetB_iff x x).mpr ⟨rfl, fun _ h => h⟩

theorem properSubB_irrefl (x : List Bool) : properSubB x x = false := by
  simp [properSubB]

theorem subsetB_trans {x y z : List Bool} (h1 : subsetB x y = true)
    (h2 : subsetB y z = true) : subsetB x z = true := by
  obtain ⟨l1, b1⟩ := (subsetB_iff x y).mp h1
  obtain ⟨l2, b2⟩ := (subsetB_iff y z).mp h2
  exact (subsetB_iff x z).mpr ⟨l1.trans l2, fun i hi => b2 i (b1 i hi)⟩

theorem subsetB_false_of_length_ne {x y : List Bool} (h : x.length ≠ y.length) :
    subsetB x y = false := by
  rcases hs : subsetB x y with _ | _
  · rfl
  · exact absurd ((subsetB_iff x y).mp hs).1 h

theorem bitlist_ext {x y : List Bool} (hlen : x.length = y.length)
    (h : ∀ i, getBit x i = getBit y i) : x = y := by
  induction x generalizing y with
  | nil => cases y with
    | nil => rfl
    | cons b ys => simp at hlen
  | cons a xs ih =>
    cases y with
    | nil => simp at hlen
    | cons b ys =>
      simp only [List.length_cons, Nat.succ.injEq] at hlen
      have h0 := h 0
      rw [getBit_cons_zero, getBit_cons_zero] at h0
      have htl : xs = ys := by
        refine ih hlen ?_
        intro i
        have := h (i + 1)
        simpa [getBit_cons_succ] using this
      rw [h0, htl]

theorem popcount_orBits (x y : List Bool) (hlen : x.length = y.length)
    (hov : overlapsB x y = false) :
    popcount (orBits x y) = popcount x + popcount y := by
  induction x generalizing y with
  | nil =>
    cases y with
    | nil => simp [popcount, orBits]
    | cons b ys => simp at hlen
  | cons a xs ih =>
    cases y with
    | nil => simp at hlen
    | cons b ys =>
      simp only [List.length_cons, Nat.succ.injEq] at hlen
      simp only [overlapsB, List.zipWith_cons_cons, List.any_cons, Bool.or_eq_false_iff, id] at hov
      obtain ⟨hab, htl⟩ := hov
      have := ih ys hlen htl
      cases a with
      | false =>
        simp only [Bool.false_and] at hab
        cases b with
        | false => simp_all [popcount, orBits, List.count_cons]
        | true =>
          simp_all [popcount, orBits, List.count_cons]
          omega
      | true =>
        cases b with
        | false =>
          simp_all [popcount, orBits, List.count_cons]
          omega
        | true => simp at hab

/-! ### Attestation data model -/

/-- Modelled from the spec: an Attestation holds opaque vote `data` (compared
only by equality, modelled as a `Nat`), a participation bit-vector, and an
opaque signature.  The signature is modelled as the formal multiset of leaf
signatures (a `List Nat`); the external cryptographic aggregation collaborator
is modelled as list concatenation. -/
structure Attestation where
  data : Nat
  aggregationBits : List Bool
  sig : List Nat
  deriving DecidableEq

/-- Modelled from the spec: aggregation error taxonomy of the attestation
aggregator (`DifferentLengths`, `BitsOverlap`). -/
inductive AggError where
  | differentLengths
  | bitsOverlap
  deriving DecidableEq

/-- Modelled from the spec: pairwise aggregation `AggregateAttestation`.
Missing source file attestation_aggregation.go.  Rejects operands whose
participation vectors have different declared lengths with
`DifferentLengths`, rejects overlapping participation with `BitsOverlap`,
and otherwise returns the attestation carrying the bitwise OR of the two
participations, the carried-over vote data and the aggregated signature. -/
def AggregateAttestation (a b : Attestation) : Except AggError Attestation :=
  if a.aggregationBits.length ≠ b.aggregationBits.length then
    .error .differentLengths
  else if overlapsB a.aggregationBits b.aggregationBits then
    .error .bitsOverlap
  else
    .ok ⟨a.data, orBits a.aggregationBits b.aggregationBits, a.sig ++ b.sig⟩

/-! ### Epoch span store

Missing source file slasher/detection/attestations/types/epoch_store.go;
the store is modelled from the spec as a contiguous byte buffer (a
`List (Fin 256)`) of 7-byte records together with the recorded
highest-observed validator index. -/

/-- Modelled from the spec: a per-validator per-epoch span record with two
unsigned 16-bit spans, two raw signature bytes and an attested flag. -/
structure Span where
  minSpan : Fin 65536
  maxSpan : Fin 65536
  sigBytes : Fin 256 × Fin 256
  hasAttested : Bool
  deriving DecidableEq

/-- Modelled from the spec: the zero value of `Span`. -/
def zeroSpan : Span :=
  { minSpan := 0, maxSpan := 0, sigBytes := (0, 0), hasAttested := false }

/-- Modelled from the spec: the `WrongSize` error surfaced when a raw buffer is
not an exact multiple of the 7-byte record width. -/
inductive StoreError where
  | wrongSize
  deriving DecidableEq

/-- Modelled from the spec: the epoch store, an owned contiguous byte buffer
plus the largest index ever written. -/
structure EpochStore where
  spans : List (Fin 256)
  highestObservedIdx : Nat
  deriving DecidableEq

/-- Byte of a buffer at an absolute offset, zero beyond the end. -/
def byteAt (l : List (Fin 256)) (i : Nat) : Fin 256 :=
  l.getD i 0

/-- Little-endian 16-bit value read at an absolute offset of a byte buffer. -/
def u16At (l : List (Fin 256)) (i : Nat) : Fin 65536 :=
  ⟨(byteAt l i).val + 256 * (byteAt l (i + 1)).val, by
    have h1 := (byteAt l i).isLt
    have h2 := (byteAt l (i + 1)).isLt
    omega⟩

/-- Modelled from the spec: store capacity in validator slots. -/
def capacity (es : EpochStore) : Nat :=
  es.spans.length / 7

/-- Modelled from the spec: `NewEpochStore` fails with `WrongSize` unless the
raw buffer length is an exact multiple of 7; the fresh store starts with
`highestObservedIdx = 0`. -/
def NewEpochStore (b : List (Fin 256)) : Except StoreError EpochStore :=
  if b.length % 7 = 0 then .ok ⟨b, 0⟩ else .error .wrongSize

/-- Modelled from the spec: `GetValidatorSpan` decodes the 7-byte record at
offset `idx * 7` (little-endian 16-bit spans at +0 and +2, raw signature
bytes at +4, attested flag at +6) when `idx` is within capacity, and returns
the zero span otherwise; absence is not an error. -/
def GetValidatorSpan (es : EpochStore) (idx : Nat) : Span :=
  if idx < capacity es then
    { minSpan := u16At es.spans (idx * 7)
      maxSpan := u16At es.spans (idx * 7 + 2)
      sigBytes := (byteAt es.spans (idx * 7 + 4), byteAt es.spans (idx * 7 + 5))
      hasAttested := byteAt es.spans (idx * 7 + 6) != 0 }
  else zeroSpan

/-- Low byte of a 16-bit value. -/
def lo16 (x : Fin 65536) : Fin 256 :=
  ⟨x.val % 256, Nat.mod_lt _ (by omega)⟩

/-- High byte of a 16-bit value. -/
def hi16 (x : Fin 65536) : Fin 256 :=
  ⟨x.val / 256, by have := x.isLt; omega⟩

/-- Modelled from the spec: the 7-byte wire encoding of a span record:
minSpan lo, minSpan hi, maxSpan lo, maxSpan hi, two signature bytes, and the
attested flag byte. -/
def encodeSpan (s : Span) : List (Fin 256) :=
  [lo16 s.minSpan, hi16 s.minSpan, lo16 s.maxSpan, hi16 s.maxSpan,
   s.sigBytes.1, s.sigBytes.2, if s.hasAttested then 1 else 0]

/-- Modelled from the spec: `SetValidatorSpan` grows the buffer to `idx + 1`
zero-filled slots when `idx` is beyond capacity, overwrites the 7-byte record
at offset `idx * 7`, and raises the high-water mark to `idx` if needed. -/
def SetValidatorSpan (es : EpochStore) (idx : Nat) (s : Span) : EpochStore :=
  let buf := if idx < capacity es then es.spans
             else es.spans ++ List.replicate ((idx + 1) * 7 - es.spans.length) 0
  { spans := buf.take (idx * 7) ++ encodeSpan s ++ buf.drop (idx * 7 + 7)
    highestObservedIdx := max es.highestObservedIdx idx }

/-- The stored 7-byte record of validator `j`. -/
def recordAt (es : EpochStore) (j : Nat) : List (Fin 256) :=
  [byteAt es.spans (j * 7), byteAt es.spans (j * 7 + 1), byteAt es.spans (j * 7 + 2),
   byteAt es.spans (j * 7 + 3), byteAt es.spans (j * 7 + 4), byteAt es.spans (j * 7 + 5),
   byteAt es.spans (j * 7 + 6)]

/-! #### Epoch store lemmas -/

theorem grown_length {es : EpochStore} {idx : Nat} :
    (if idx < capacity es then es.spans
     else es.spans ++ List.replicate ((idx + 1) * 7 - es.spans.length) 0).length =
      max es.spans.length ((idx + 1) * 7) := by
  by_cases h : idx < capacity es
  · have : (idx + 1) * 7 ≤ es.spans.length := by
      unfold capacity at h
      omega
    simp [h, Nat.max_eq_left this]
  · have hge : es.spans.length ≤ (idx + 1) * 7 := by
      unfold capacity at h
      omega
    simp [h, Nat.max_eq_right hge]
    omega

theorem byteAt_append_left {l m : List (Fin 256)} {p : Nat} (h : p < l.length) :
    byteAt (l ++ m) p = byteAt l p := by
  simp [byteAt, List.getD_eq_getElem?_getD, List.getElem?_append_left h]

theorem byteAt_replicate (n : Nat) (p : Nat) :
    byteAt (List.replicate n (0 : Fin 256)) p = 0 := by
  simp only [byteAt, List.getD_eq_getElem?_getD, List.getElem?_replicate]
  by_cases h : p < n <;> simp [h]

theorem byteAt_grown {es : EpochStore} {idx : Nat} (p : Nat) :
    byteAt (if idx < capacity es then es.spans
            else es.spans ++ List.replicate ((idx + 1) * 7 - es.spans.length) 0) p =
      byteAt es.spans p := by
  by_cases h : idx < capacity es
  · simp [h]
  · simp only [h, if_false]
    by_cases hp : p < es.spans.length
    · exact byteAt_append_left hp
    · have h1 : byteAt es.spans p = 0 := by
        simp [byteAt, List.getD_eq_getElem?_getD, List.getElem?_eq_none (Nat.le_of_not_lt hp)]
      rw [h1]
      simp only [byteAt, List.getD_eq_getElem?_getD, List.getElem?_append_right
        (Nat.le_of_not_lt hp)]
      rw [List.getElem?_replicate]
      by_cases hq : p - es.spans.length < (idx + 1) * 7 - es.spans.length <;> simp [hq]

/-- Core byte-level description of `SetValidatorSpan`: bytes inside the
written record come from the encoding, all other bytes read as before
(freshly grown slots read 0 both before and after, since reads past the end
default to 0). -/
theorem byteAt_set (es : EpochStore) (idx : Nat) (s : Span) (p : Nat) :
    byteAt (SetValidatorSpan es idx s).spans p =
      if idx * 7 ≤ p ∧ p < idx * 7 + 7 then byteAt (encodeSpan s) (p - idx * 7)
      else byteAt es.spans p := by
  have hlen : (7 : Nat) = (encodeSpan s).length := by simp [encodeSpan]
  set buf := if idx < capacity es then es.spans
             else es.spans ++ List.replicate ((idx + 1) * 7 - es.spans.length) 0 with hbuf
  have hblen : buf.length = max es.spans.length ((idx + 1) * 7) := grown_length
  have hbig : idx * 7 + 7 ≤ buf.length := by omega
  have htake : (buf.take (idx * 7)).length = idx * 7 := by
    simp [List.length_take]
    omega
  show byteAt (buf.take (idx * 7) ++ encodeSpan s ++ buf.drop (idx * 7 + 7)) p = _
  by_cases hp : idx * 7 ≤ p ∧ p < idx * 7 + 7
  · rw [if_pos hp]
    rw [List.append_assoc]
    have hp1 : ¬ p < (buf.take (idx * 7)).length := by omega
    simp only [byteAt, List.getD_eq_getElem?_getD,
      List.getElem?_append_right (Nat.le_of_not_lt hp1), htake]
    have hp2 : p - idx * 7 < (encodeSpan s).length := by omega
    rw [List.getElem?_append_left hp2]
  · rw [if_neg hp]
    rcases Nat.lt_or_ge p (idx * 7) with hlt | hge
    · have hp1 : p < (buf.take (idx * 7)).length := by omega
      rw [List.append_assoc]
      simp only [byteAt, List.getD_eq_getElem?_getD, List.getElem?_append_left hp1]
      have ht : (buf.take (idx * 7))[p]? = buf[p]? := List.getElem?_take_of_lt (by omega)
      rw [ht]
      have := @byteAt_grown es idx p
      rw [← hbuf] at this
      simpa [byteAt, List.getD_eq_getElem?_getD] using this
    · have hge7 : idx * 7 + 7 ≤ p := by omega
      rw [List.append_assoc]
      have hp1 : ¬ p < (buf.take (idx * 7)).length := by omega
      simp only [byteAt, List.getD_eq_getElem?_getD,
        List.getElem?_append_right (Nat.le_of_not_lt hp1), htake]
      have hp2 : ¬ p - idx * 7 < (encodeSpan s).length := by omega
      rw [List.getElem?_append_right (Nat.le_of_not_lt hp2)]
      simp only [List.getElem?_drop, ← hlen]
      have harr : idx * 7 + 7 + (p - idx * 7 - 7) = p := by omega
      rw [harr]
      have := @byteAt_grown es idx p
      rw [← hbuf] at this
      simpa [byteAt, List.getD_eq_getElem?_getD] using this

theorem length_set (es : EpochStore) (idx : Nat) (s : Span) :
    (SetValidatorSpan es idx s).spans.length =
      max es.spans.length ((idx + 1) * 7) := by
  show ((if idx < capacity es then es.spans
         else es.spans ++ List.replicate ((idx + 1) * 7 - es.spans.length) 0).take (idx * 7)
        ++ encodeSpan s
        ++ (if idx < capacity es then es.spans
            else es.spans ++ List.replicate ((idx + 1) * 7 - es.spans.length) 0).drop
              (idx * 7 + 7)).length = _
  have hblen := @grown_length es idx
  simp only [List.length_append, List.length_take, List.length_drop, hblen]
  have : (encodeSpan s).length = 7 := by simp [encodeSpan]
  omega

theorem highest_set (es : EpochStore) (idx : Nat) (s : Span) :
    (SetValidatorSpan es idx s).highestObservedIdx =
      max es.highestObservedIdx idx := rfl

theorem mod7_set (es : EpochStore) (idx : Nat) (s : Span)
    (h : es.spans.length % 7 = 0) :
    (SetValidatorSpan es idx s).spans.length % 7 = 0 := by
  rw [length_set]
  omega

theorem u16At_val (l : List (Fin 256)) (i : Nat) :
    (u16At l i).val = (byteAt l i).val + 256 * (byteAt l (i + 1)).val := rfl

theorem lo_hi_16 (x : Fin 65536) : (lo16 x).val + 256 * (hi16 x).val = x.val :=
  Nat.mod_add_div x.val 256

/-- Decoding a 7-byte region that holds `encodeSpan s` yields `s` back. -/
theorem decode_encode (l : List (Fin 256)) (o : Nat) (s : Span)
    (hb : ∀ k, k < 7 → byteAt l (o + k) = byteAt (encodeSpan s) k) :
    ({ minSpan := u16At l o
       maxSpan := u16At l (o + 2)
       sigBytes := (byteAt l (o + 4), byteAt l (o + 5))
       hasAttested := byteAt l (o + 6) != 0 } : Span) = s := by
  obtain ⟨mn, mx, sg, ha⟩ := s
  have h0 : byteAt l o = lo16 mn := by
    have := hb 0 (by omega)
    rwa [Nat.add_zero] at this
  have h1 : byteAt l (o + 1) = hi16 mn := hb 1 (by omega)
  have h2 : byteAt l (o + 2) = lo16 mx := hb 2 (by omega)
  have h3 : byteAt l (o + 3) = hi16 mx := hb 3 (by omega)
  have h4 : byteAt l (o + 4) = sg.1 := hb 4 (by omega)
  have h5 : byteAt l (o + 5) = sg.2 := hb 5 (by omega)
  have h6 : byteAt l (o + 6) = if ha then 1 else 0 := hb 6 (by omega)
  congr 1
  · apply Fin.ext
    rw [u16At_val, h0, h1]
    exact lo_hi_16 mn
  · apply Fin.ext
    rw [u16At_val, show o + 2 + 1 = o + 3 by omega, h2, h3]
    exact lo_hi_16 mx
  · rw [h4, h5]
  · rw [h6]
    cases ha <;> rfl

/-- Decoding a 7-byte region of zero bytes yields the zero span. -/
theorem decode_zero (l : List (Fin 256)) (o : Nat)
    (hb : ∀ k, k < 7 → byteAt l (o + k) = 0) :
    ({ minSpan := u16At l o
       maxSpan := u16At l (o + 2)
       sigBytes := (byteAt l (o + 4), byteAt l (o + 5))
       hasAttested := byteAt l (o + 6) != 0 } : Span) = zeroSpan := by
  have h0 : byteAt l o = 0 := by
    have := hb 0 (by omega)
    rwa [Nat.add_zero] at this
  unfold zeroSpan
  congr 1
  · apply Fin.ext
    rw [u16At_val, h0, hb 1 (by omega)]
    rfl
  · apply Fin.ext
    rw [u16At_val, show o + 2 + 1 = o + 3 by omega, hb 2 (by omega), hb 3 (by omega)]
    rfl
  · rw [hb 4 (by omega), hb 5 (by omega)]
  · rw [hb 6 (by omega)]
    rfl

theorem get_unfold (es : EpochStore) (j : Nat) (hj : j < capacity es) :
    GetValidatorSpan es j =
      { minSpan := u16At es.spans (j * 7)
        maxSpan := u16At es.spans (j * 7 + 2)
        sigBytes := (byteAt es.spans (j * 7 + 4), byteAt es.spans (j * 7 + 5))
        hasAttested := byteAt es.spans (j * 7 + 6) != 0 } := by
  rw [GetValidatorSpan, if_pos hj]

theorem get_set_same (es : EpochStore) (idx : Nat) (s : Span) :
    GetValidatorSpan (SetValidatorSpan es idx s) idx = s := by
  have hcap : idx < capacity (SetValidatorSpan es idx s) := by
    unfold capacity
    rw [length_set]
    omega
  rw [get_unfold _ _ hcap]
  apply decode_encode
  intro k hk
  rw [byteAt_set, if_pos (by omega)]
  congr 1
  omega

theorem recordAt_set_ne (es : EpochStore) (idx : Nat) (s : Span) (j : Nat)
    (hne : j ≠ idx) :
    recordAt (SetValidatorSpan es idx s) j = recordAt es j := by
  have hout : ∀ k, ¬ (idx * 7 ≤ j * 7 + k ∧ j * 7 + k < idx * 7 + 7) ∨ 7 ≤ k := by
    intro k
    by_cases hk : k < 7
    · left
      rcases Nat.lt_or_ge j idx with hj | hj
      · intro hcon; omega
      · have : idx < j := by omega
        intro hcon; omega
    · right; omega
  have hbyte : ∀ k, k < 7 →
      byteAt (SetValidatorSpan es idx s).spans (j * 7 + k) = byteAt es.spans (j * 7 + k) := by
    intro k hk
    rw [byteAt_set]
    rcases hout k with h | h
    · rw [if_neg h]
    · omega
  have hb0 : byteAt (SetValidatorSpan es idx s).spans (j * 7) = byteAt es.spans (j * 7) := by
    have := hbyte 0 (by omega)
    rwa [Nat.add_zero] at this
  unfold recordAt
  rw [hb0, hbyte 1 (by omega), hbyte 2 (by omega), hbyte 3 (by omega), hbyte 4 (by omega),
    hbyte 5 (by omega), hbyte 6 (by omega)]

theorem oob_bytes_zero (es : EpochStore) (j : Nat)
    (h7 : es.spans.length % 7 = 0) (hj : ¬ j < capacity es) :
    ∀ k, byteAt es.spans (j * 7 + k) = 0 := by
  intro k
  have : es.spans.length ≤ j * 7 + k := by
    unfold capacity at hj
    omega
  simp [byteAt, List.getD_eq_getElem?_getD, List.getElem?_eq_none this]

theorem get_set_ne (es : EpochStore) (idx : Nat) (s : Span) (j : Nat)
    (h7 : es.spans.length % 7 = 0) (hne : j ≠ idx) :
    GetValidatorSpan (SetValidatorSpan es idx s) j = GetValidatorSpan es j := by
  have hbyte : ∀ k, k < 7 →
      byteAt (SetValidatorSpan es idx s).spans (j * 7 + k) = byteAt es.spans (j * 7 + k) := by
    intro k hk
    rw [byteAt_set]
    rw [if_neg ?hn]
    case hn =>
      rcases Nat.lt_or_ge j idx with hj | hj
      · intro hcon; omega
      · have : idx < j := by omega
        intro hcon; omega
  by_cases hold : j < capacity es
  · have hnew : j < capacity (SetValidatorSpan es idx s) := by
      unfold capacity at hold ⊢
      rw [length_set]
      omega
    rw [get_unfold _ _ hold, get_unfold _ _ hnew]
    have hb0 := hbyte 0 (by omega)
    rw [Nat.add_zero] at hb0
    congr 1
    · apply Fin.ext
      rw [u16At_val, u16At_val, hb0, hbyte 1 (by omega)]
    · apply Fin.ext
      rw [u16At_val, u16At_val, show j * 7 + 2 + 1 = j * 7 + 3 by omega,
        hbyte 2 (by omega), hbyte 3 (by omega)]
    · rw [hbyte 4 (by omega), hbyte 5 (by omega)]
    · rw [hbyte 6 (by omega)]
  · have hz : GetValidatorSpan es j = zeroSpan := by
      unfold GetValidatorSpan
      rw [if_neg hold]
    rw [hz]
    by_cases hnew : j < capacity (SetValidatorSpan es idx s)
    · rw [get_unfold _ _ hnew]
      apply decode_zero
      intro k hk
      rw [hbyte k hk]
      exact oob_bytes_zero es j h7 hold k
    · unfold GetValidatorSpan
      rw [if_neg hnew]

/-- An empty store: the result of `NewEpochStore` on the empty buffer. -/
def emptyStore : EpochStore := ⟨[], 0⟩

/-- A sequence of `SetValidatorSpan` writes applied to the empty store, used
to express properties of indices that were never written. -/
def applyWrites (ws : List (Nat × Span)) : EpochStore :=
  ws.foldl (fun es p => SetValidatorSpan es p.1 p.2) emptyStore

theorem get_foldl_unwritten (ws : List (Nat × Span)) (es : EpochStore) (j : Nat)
    (h7 : es.spans.length % 7 = 0) (hz : GetValidatorSpan es j = zeroSpan)
    (hj : j ∉ ws.map Prod.fst) :
    GetValidatorSpan (ws.foldl (fun es p => SetValidatorSpan es p.1 p.2) es) j = zeroSpan := by
  induction ws generalizing es with
  | nil => simpa using hz
  | cons w t ih =>
    simp only [List.map_cons, List.mem_cons, not_or] at hj
    simp only [List.foldl_cons]
    exact ih (SetValidatorSpan es w.1 w.2) (mod7_set es w.1 w.2 h7)
      ((get_set_ne es w.1 w.2 j h7 hj.1).trans hz) hj.2

theorem highest_foldl (ws : List (Nat × Span)) (es : EpochStore) :
    (ws.foldl (fun es p => SetValidatorSpan es p.1 p.2) es).highestObservedIdx =
      ws.foldl (fun m p => max m p.1) es.highestObservedIdx := by
  induction ws generalizing es with
  | nil => rfl
  | cons w t ih =>
    simp only [List.foldl_cons]
    exact ih (SetValidatorSpan es w.1 w.2)

theorem mod7_foldl (ws : List (Nat × Span)) (es : EpochStore)
    (h7 : es.spans.length % 7 = 0) :
    (ws.foldl (fun es p => SetValidatorSpan es p.1 p.2) es).spans.length % 7 = 0 := by
  induction ws generalizing es with
  | nil => exact h7
  | cons w t ih =>
    simp only [List.foldl_cons]
    exact ih _ (mod7_set es w.1 w.2 h7)

/-! ### Epoch store claims -/

/-- C3: for every store created from a raw byte buffer (necessarily a
multiple of 7 bytes, or creation fails) and every index within capacity,
`GetValidatorSpan` decodes the 7 bytes at offset `idx * 7` as the
little-endian 16-bit minSpan at +0, little-endian 16-bit maxSpan at +2, the
two raw signature bytes at +4 and +5, and `hasAttested` true iff the byte at
+6 is nonzero. -/
theorem getValidatorSpan_decodes_record (buf : List (Fin 256)) (es : EpochStore)
    (idx : Nat) (hok : NewEpochStore buf = .ok es) (hidx : idx < buf.length / 7) :
    GetValidatorSpan es idx =
      { minSpan := ⟨(byteAt buf (idx * 7)).val + 256 * (byteAt buf (idx * 7 + 1)).val,
          (u16At buf (idx * 7)).isLt⟩
        maxSpan := ⟨(byteAt buf (idx * 7 + 2)).val + 256 * (byteAt buf (idx * 7 + 3)).val,
          (u16At buf (idx * 7 + 2)).isLt⟩
        sigBytes := (byteAt buf (idx * 7 + 4), byteAt buf (idx * 7 + 5))
        hasAttested := byteAt buf (idx * 7 + 6) != 0 } := by
  have hbuf : es = ⟨buf, 0⟩ := by
    unfold NewEpochStore at hok
    by_cases h : buf.length % 7 = 0
    · rw [if_pos h] at hok
      cases hok
      rfl
    · rw [if_neg h] at hok
      cases hok
  subst hbuf
  rw [get_unfold _ _ (by simpa [capacity] using hidx)]
  congr 2

/-- C3 witness: the 7 bytes 01 01 01 01 01 01 01 decode to validator 0's
span {minSpan 257, maxSpan 257, sigBytes (1,1), hasAttested true}, and
validator 1 reads the zero span. -/
theorem getValidatorSpan_decodes_record_witness :
    GetValidatorSpan ⟨[1, 1, 1, 1, 1, 1, 1], 0⟩ 0 =
      { minSpan := 257, maxSpan := 257, sigBytes := (1, 1), hasAttested := true } ∧
    GetValidatorSpan ⟨[1, 1, 1, 1, 1, 1, 1], 0⟩ 1 = zeroSpan := by
  constructor
  · have h := getValidatorSpan_decodes_record [1, 1, 1, 1, 1, 1, 1] ⟨[1, 1, 1, 1, 1, 1, 1], 0⟩
      0 rfl (by decide)
    rw [h]
    decide
  · decide

/-- C5: `NewEpochStore` fails with `WrongSize` for every raw byte buffer
whose length is not an exact multiple of 7, producing no store; for buffers
whose length is a multiple of 7 (in particular the empty buffer) it succeeds
and the resulting store keeps exactly those bytes with
`highestObservedIdx = 0`. -/
theorem newEpochStore_wrongSize (b : List (Fin 256)) :
    (b.length % 7 ≠ 0 → NewEpochStore b = .error .wrongSize) ∧
    (b.length % 7 = 0 → NewEpochStore b = .ok ⟨b, 0⟩) := by
  constructor
  · intro h
    unfold NewEpochStore
    rw [if_neg h]
  · intro h
    unfold NewEpochStore
    rw [if_pos h]

/-- C5 witness: 3-byte and 8-byte buffers are rejected with `WrongSize`; the
empty buffer yields a store with `highestObservedIdx = 0`. -/
theorem newEpochStore_wrongSize_witness :
    NewEpochStore (List.replicate 3 0) = .error .wrongSize ∧
    NewEpochStore (List.replicate 8 0) = .error .wrongSize ∧
    NewEpochStore [] = .ok ⟨[], 0⟩ ∧ (⟨[], 0⟩ : EpochStore).highestObservedIdx = 0 :=
  ⟨(newEpochStore_wrongSize _).1 (by decide),
   (newEpochStore_wrongSize _).1 (by decide),
   (newEpochStore_wrongSize []).2 (by decide), rfl⟩

/-- C6: reading back the index just written returns exactly the span that
was written, and the stored 7-byte record of every other index is
byte-identical to what it was before the write, including when the write
grew the buffer. -/
theorem setValidatorSpan_roundtrip_frame (es : EpochStore) (idx : Nat) (s : Span) :
    GetValidatorSpan (SetValidatorSpan es idx s) idx = s ∧
    ∀ j, j ≠ idx → recordAt (SetValidatorSpan es idx s) j = recordAt es j :=
  ⟨get_set_same es idx s, fun j hj => recordAt_set_ne es idx s j hj⟩

/-- C6 witness: writing index 0 and then index 2 (which grows the buffer)
reads back the second span at index 2 and leaves index 0's record
byte-identical. -/
theorem setValidatorSpan_roundtrip_frame_witness :
    GetValidatorSpan
        (SetValidatorSpan (SetValidatorSpan emptyStore 0 ⟨5, 69, (40, 219), false⟩)
          2 ⟨53, 122, (200, 119), true⟩) 2 = ⟨53, 122, (200, 119), true⟩ ∧
    recordAt
        (SetValidatorSpan (SetValidatorSpan emptyStore 0 ⟨5, 69, (40, 219), false⟩)
          2 ⟨53, 122, (200, 119), true⟩) 0 =
      recordAt (SetValidatorSpan emptyStore 0 ⟨5, 69, (40, 219), false⟩) 0 :=
  ⟨(setValidatorSpan_roundtrip_frame _ 2 _).1,
   (setValidatorSpan_roundtrip_frame _ 2 _).2 0 (by decide)⟩

/-- C7: starting from the empty store, after any sequence of writes every
index never written reads the zero span regardless of how far the buffer has
grown, and `highestObservedIdx` is the largest index ever passed to
`SetValidatorSpan` (0 when there were none). -/
theorem unwritten_reads_zero (ws : List (Nat × Span)) (j : Nat)
    (hj : j ∉ ws.map Prod.fst) :
    GetValidatorSpan (applyWrites ws) j = zeroSpan ∧
    (applyWrites ws).highestObservedIdx = ws.foldl (fun m p => max m p.1) 0 := by
  constructor
  · exact get_foldl_unwritten ws emptyStore j (by decide)
      (by simp [GetValidatorSpan, capacity, emptyStore]) hj
  · exact highest_foldl ws emptyStore

/-- C7 witness: create an empty store, write index 1000, and index 16 still
reads the zero span while the high-water mark is 1000. -/
theorem unwritten_reads_zero_witness :
    GetValidatorSpan (applyWrites [(1000, ⟨53, 122, (200, 119), true⟩)]) 16 = zeroSpan ∧
    (applyWrites [(1000, ⟨53, 122, (200, 119), true⟩)]).highestObservedIdx = 1000 := by
  have h := unwritten_reads_zero [(1000, ⟨53, 122, (200, 119), true⟩)] 16 (by decide)
  exact ⟨h.1, h.2.trans (by decide)⟩

/-! ### Attestation aggregator (batch algorithm)

Missing source file attestation_aggregation.go; the naive greedy strategy of
`AggregateAttestations` is modelled from the spec: partition by
(data, participation length), greedily fold each candidate into the first
accumulator it does not overlap, then drop strict-subset accumulators and
deduplicate identical participation patterns.  The spec leaves the output
order unspecified, so the partitions are enumerated in a canonical order of
their keys. -/

/-- Modelled from the spec: folding a candidate into an accumulator: disjoint
union of participations, carried-over data, aggregated signature. -/
def mergeAtt (a c : Attestation) : Attestation :=
  ⟨a.data, orBits a.aggregationBits c.aggregationBits, a.sig ++ c.sig⟩

/-- Modelled from the spec: attempt to fold candidate `c` into the first
accumulator (in the order encountered) whose participation has the same
declared length and does not overlap `c`; if none admits it, open a new
accumulator seeded with `c` at the end. -/
def foldInto : List Attestation → Attestation → List Attestation
  | [], c => [c]
  | a :: rest, c =>
    if a.aggregationBits.length = c.aggregationBits.length ∧
        overlapsB a.aggregationBits c.aggregationBits = false then
      mergeAtt a c :: rest
    else
      a :: foldInto rest c

/-- Modelled from the spec: greedy accumulation over one partition, consuming
candidates in input order. -/
def aggregateGroup (g : List Attestation) : List Attestation :=
  g.foldl foldInto []

/-- Modelled from the spec: the subsumption pass, dropping every accumulator
whose final participation is a strict subset of another accumulator's. -/
def subsumePass (l : List Attestation) : List Attestation :=
  l.filter (fun a => !(l.any (fun b => properSubB a.aggregationBits b.aggregationBits)))

/-- Modelled from the spec: deduplication of accumulators whose final
participation bit patterns are identical, keeping one representative. -/
def dedupPass : List Attestation → List Attestation
  | [] => []
  | a :: rest =>
    if rest.any (fun b => b.aggregationBits == a.aggregationBits) then dedupPass rest
    else a :: dedupPass rest

/-- Modelled from the spec: the partition key: vote data and declared
participation length. -/
def attKey (a : Attestation) : Nat × Nat :=
  (a.data, a.aggregationBits.length)

/-- Modelled from the spec: `AggregateAttestations` (naive strategy):
partition by key, aggregate greedily within each partition, eliminate
subsumed and duplicate accumulators, and concatenate the partitions. -/
def AggregateAttestations (atts : List Attestation) : List Attestation :=
  (((atts.map attKey).dedup).map (fun k =>
    dedupPass (subsumePass (aggregateGroup (atts.filter (fun a => attKey a == k)))))).flatten

/-- Shorthand for an attestation with vote data 0 and empty signature, used
in concrete test vectors. -/
def att0 (bits : List Bool) : Attestation :=
  ⟨0, bits, []⟩

/-- Test vector (attestation_aggregation_test.go, two attestations with no
overlap): bitlists 0b00000001 and 0b00000010 of declared length 8 aggregate
to the single bitlist 0b00000011. -/
theorem testVector_no_overlap :
    (AggregateAttestations
        [att0 [true, false, false, false, false, false, false, false],
         att0 [false, true, false, false, false, false, false, false]]).map
      Attestation.aggregationBits =
      [[true, true, false, false, false, false, false, false]] := by
  decide

/-- Test vector (attestation_aggregation_test.go, two attestations with
overlap): bitlists 0b00000101 and 0b00000110 pass through unmerged. -/
theorem testVector_overlap :
    (AggregateAttestations
        [att0 [true, false, true, false, false, false, false, false],
         att0 [false, true, true, false, false, false, false, false]]).map
      Attestation.aggregationBits =
      [[true, false, true, false, false, false, false, false],
       [false, true, true, false, false, false, false, false]] := by
  decide

/-- Test vector (attestation_aggregation_test.go, some attestations overlap):
bitlists 0b00001001, 0b00010110, 0b00001010, 0b00110001 aggregate to
0b00011111 and 0b00111011. -/
theorem testVector_some_overlap :
    (AggregateAttestations
        [att0 [true, false, false, true, false, false, false, false],
         att0 [false, true, true, false, true, false, false, false],
         att0 [false, true, false, true, false, false, false, false],
         att0 [true, false, false, false, true, true, false, false]]).map
      Attestation.aggregationBits =
      [[true, true, true, true, true, false, false, false],
       [true, true, false, true, true, true, false, false]] := by
  decide

/-- Test vector (attestation_aggregation_test.go, duplicates are removed):
bitlists 0b00000101, 0b00000110, 0b00001010, 0b00001001 aggregate to the
single bitlist 0b00001111. -/
theorem testVector_duplicates :
    (AggregateAttestations
        [att0 [true, false, true, false, false, false, false, false],
         att0 [false, true, true, false, false, false, false, false],
         att0 [false, true, false, true, false, false, false, false],
         att0 [true, false, false, true, false, false, false, false]]).map
      Attestation.aggregationBits =
      [[true, true, true, true, false, false, false, false]] := by
  decide

/-- Test vector (attestation_aggregation_test.go, one contained in the
other, both orders): the strict subset is discarded. -/
theorem testVector_contained :
    (AggregateAttestations
        [att0 [true, false], att0 [true, true]]).map Attestation.aggregationBits =
      [[true, true]] ∧
    (AggregateAttestations
        [att0 [true, true], att0 [true, false]]).map Attestation.aggregationBits =
      [[true, true]] := by
  decide

/-- Test vector (attestation_aggregation_test.go, different bitlist
lengths): attestations with pairwise different declared lengths pass
through unchanged. -/
theorem testVector_diff_lengths :
    AggregateAttestations
        [att0 [true, true, false, false, false, false, false, false, false],
         att0 [true, true, true, false, false, false, false, false, false, false],
         att0 [false, false, true, false, false, false, false, false]] =
      [att0 [true, true, false, false, false, false, false, false, false],
       att0 [true, true, true, false, false, false, false, false, false, false],
       att0 [false, false, true, false, false, false, false, false]] := by
  decide

/-! #### Coverage: the union of participation bits over a list -/

/-- Bit `i` is set in some attestation of the list. -/
def covered (l : List Attestation) (i : Nat) : Prop :=
  ∃ a ∈ l, getBit a.aggregationBits i = true

theorem covered_nil (i : Nat) : ¬ covered [] i := by
  rintro ⟨a, ha, _⟩
  cases ha

theorem covered_cons (a : Attestation) (l : List Attestation) (i : Nat) :
    covered (a :: l) i ↔ getBit a.aggregationBits i = true ∨ covered l i := by
  constructor
  · rintro ⟨b, hb, hbit⟩
    rcases List.mem_cons.mp hb with rfl | hb
    · exact Or.inl hbit
    · exact Or.inr ⟨b, hb, hbit⟩
  · rintro (h | ⟨b, hb, hbit⟩)
    · exact ⟨a, List.mem_cons_self _ _, h⟩
    · exact ⟨b, List.mem_cons_of_mem _ hb, hbit⟩

theorem covered_append (l₁ l₂ : List Attestation) (i : Nat) :
    covered (l₁ ++ l₂) i ↔ covered l₁ i ∨ covered l₂ i := by
  constructor
  · rintro ⟨a, ha, hbit⟩
    rcases List.mem_append.mp ha with h | h
    · exact Or.inl ⟨a, h, hbit⟩
    · exact Or.inr ⟨a, h, hbit⟩
  · rintro (⟨a, ha, hbit⟩ | ⟨a, ha, hbit⟩)
    · exact ⟨a, List.mem_append.mpr (Or.inl ha), hbit⟩
    · exact ⟨a, List.mem_append.mpr (Or.inr ha), hbit⟩

theorem covered_of_mem_of_subset {l : List Attestation} {a b : Attestation} {i : Nat}
    (hb : b ∈ l) (hs : subsetB a.aggregationBits b.aggregationBits = true)
    (hbit : getBit a.aggregationBits i = true) : covered l i :=
  ⟨b, hb, ((subsetB_iff _ _).mp hs).2 i hbit⟩

/-! #### Greedy fold lemmas -/

theorem attKey_mergeAtt {a c : Attestation}
    (h : a.aggregationBits.length = c.aggregationBits.length) :
    attKey (mergeAtt a c) = attKey a := by
  unfold attKey mergeAtt
  simp [length_orBits _ _ h]

theorem mem_foldInto {accs : List Attestation} {c x : Attestation}
    (hx : x ∈ foldInto accs c) :
    x ∈ accs ∨ x = c ∨ ∃ a ∈ accs, x = mergeAtt a c := by
  induction accs with
  | nil =>
    simp only [foldInto, List.mem_singleton] at hx
    exact Or.inr (Or.inl hx)
  | cons a rest ih =>
    by_cases hadm : a.aggregationBits.length = c.aggregationBits.length ∧
        overlapsB a.aggregationBits c.aggregationBits = false
    · rw [foldInto, if_pos hadm] at hx
      rcases List.mem_cons.mp hx with rfl | hx
      · exact Or.inr (Or.inr ⟨a, List.mem_cons_self _ _, rfl⟩)
      · exact Or.inl (List.mem_cons_of_mem _ hx)
    · rw [foldInto, if_neg hadm] at hx
      rcases List.mem_cons.mp hx with rfl | hx
      · exact Or.inl (List.mem_cons_self _ _)
      · rcases ih hx with h | h | ⟨b, hb, hbx⟩
        · exact Or.inl (List.mem_cons_of_mem _ h)
        · exact Or.inr (Or.inl h)
        · exact Or.inr (Or.inr ⟨b, List.mem_cons_of_mem _ hb, hbx⟩)

theorem covered_foldInto (accs : List Attestation) (c : Attestation) (i : Nat) :
    covered (foldInto accs c) i ↔ covered accs i ∨ getBit c.aggregationBits i = true := by
  induction accs with
  | nil =>
    rw [foldInto, covered_cons]
    constructor
    · rintro (h | h)
      · exact Or.inr h
      · exact absurd h (covered_nil i)
    · rintro (h | h)
      · exact absurd h (covered_nil i)
      · exact Or.inl h
  | cons a rest ih =>
    by_cases hadm : a.aggregationBits.length = c.aggregationBits.length ∧
        overlapsB a.aggregationBits c.aggregationBits = false
    · rw [foldInto, if_pos hadm, covered_cons, covered_cons]
      have : getBit (mergeAtt a c).aggregationBits i =
          (getBit a.aggregationBits i || getBit c.aggregationBits i) :=
        getBit_orBits _ _ hadm.1 i
      rw [show (mergeAtt a c).aggregationBits = orBits a.aggregationBits c.aggregationBits
        from rfl, getBit_orBits _ _ hadm.1 i]
      simp only [Bool.or_eq_true]
      tauto
    · rw [foldInto, if_neg hadm, covered_cons, covered_cons, ih]
      tauto

theorem foldInto_ne_nil (accs : List Attestation) (c : Attestation) :
    foldInto accs c ≠ [] := by
  cases accs with
  | nil => simp [foldInto]
  | cons a rest =>
    by_cases hadm : a.aggregationBits.length = c.aggregationBits.length ∧
        overlapsB a.aggregationBits c.aggregationBits = false
    · rw [foldInto, if_pos hadm]
      simp
    · rw [foldInto, if_neg hadm]
      simp

theorem homog_foldInto {accs : List Attestation} {c : Attestation} {k : Nat × Nat}
    (hacc : ∀ x ∈ accs, attKey x = k) (hc : attKey c = k) :
    ∀ x ∈ foldInto accs c, attKey x = k := by
  induction accs with
  | nil =>
    intro x hx
    rw [foldInto] at hx
    rcases List.mem_singleton.mp hx with rfl
    exact hc
  | cons a rest ih =>
    intro x hx
    by_cases hadm : a.aggregationBits.length = c.aggregationBits.length ∧
        overlapsB a.aggregationBits c.aggregationBits = false
    · rw [foldInto, if_pos hadm] at hx
      rcases List.mem_cons.mp hx with rfl | hx
      · rw [attKey_mergeAtt hadm.1]
        exact hacc a (List.mem_cons_self _ _)
      · exact hacc x (List.mem_cons_of_mem _ hx)
    · rw [foldInto, if_neg hadm] at hx
      rcases List.mem_cons.mp hx with rfl | hx
      · exact hacc x (List.mem_cons_self _ _)
      · exact ih (fun y hy => hacc y (List.mem_cons_of_mem _ hy)) x hx

/-- Overlap is monotone in each argument with respect to pointwise bit
implication. -/
theorem overlapsB_mono_right {x y z : List Bool}
    (h : ∀ i, getBit y i = true → getBit z i = true)
    (hov : overlapsB x y = true) : overlapsB x z = true := by
  obtain ⟨i, hx, hy⟩ := (overlapsB_iff x y).mp hov
  exact (overlapsB_iff x z).mpr ⟨i, hx, h i hy⟩

/-- The pairwise-overlap relation on attestations. -/
def ovl (x y : Attestation) : Prop :=
  overlapsB x.aggregationBits y.aggregationBits = true

theorem ovl_symm {x y : Attestation} (h : ovl x y) : ovl y x := by
  unfold ovl at *
  rwa [overlapsB_comm]

theorem pairwise_ovl_foldInto {accs : List Attestation} {c : Attestation} {k : Nat × Nat}
    (hacc : ∀ x ∈ accs, attKey x = k) (hc : attKey c = k)
    (hpw : accs.Pairwise ovl) : (foldInto accs c).Pairwise ovl := by
  induction accs with
  | nil =>
    rw [foldInto]
    exact List.pairwise_singleton _ _
  | cons a rest ih =>
    have hlen : a.aggregationBits.length = c.aggregationBits.length := by
      have h1 := hacc a (List.mem_cons_self _ _)
      unfold attKey at h1 hc
      have := congrArg Prod.snd h1
      have := congrArg Prod.snd hc
      simp_all
    rcases List.pairwise_cons.mp hpw with ⟨harest, hrest⟩
    by_cases hadm : a.aggregationBits.length = c.aggregationBits.length ∧
        overlapsB a.aggregationBits c.aggregationBits = false
    · rw [foldInto, if_pos hadm]
      refine List.pairwise_cons.mpr ⟨?_, hrest⟩
      intro b hb
      have hab := harest b hb
      unfold ovl at hab ⊢
      refine (overlapsB_iff _ _).mpr ?_
      obtain ⟨i, hia, hib⟩ := (overlapsB_iff _ _).mp hab
      refine ⟨i, ?_, hib⟩
      rw [show (mergeAtt a c).aggregationBits = orBits a.aggregationBits c.aggregationBits
        from rfl, getBit_orBits _ _ hadm.1 i, hia]
      rfl
    · rw [foldInto, if_neg hadm]
      have hoc : ovl a c := by
        unfold ovl
        rcases hov : overlapsB a.aggregationBits c.aggregationBits with _ | _
        · exact absurd ⟨hlen, hov⟩ hadm
        · rfl
      refine List.pairwise_cons.mpr ⟨?_, ih (fun y hy => hacc y (List.mem_cons_of_mem _ hy)) hrest⟩
      intro b hb
      rcases mem_foldInto hb with h | h | ⟨d, hd, rfl⟩
      · exact harest b h
      · rw [h]; exact hoc
      · have hdc : d.aggregationBits.length = c.aggregationBits.length := by
          have h1 := hacc d (List.mem_cons_of_mem _ hd)
          unfold attKey at h1 hc
          have := congrArg Prod.snd h1
          have := congrArg Prod.snd hc
          simp_all
        have had := harest d hd
        unfold ovl at had ⊢
        refine overlapsB_mono_right ?_ had
        intro i hi
        rw [show (mergeAtt d c).aggregationBits = orBits d.aggregationBits c.aggregationBits
          from rfl, getBit_orBits _ _ hdc i, hi]
        rfl

/-- If the candidate overlaps every accumulator, it is appended at the end. -/
theorem foldInto_all_overlap {accs : List Attestation} {c : Attestation}
    (h : ∀ a ∈ accs, ovl a c) : foldInto accs c = accs ++ [c] := by
  induction accs with
  | nil => rfl
  | cons a rest ih =>
    have hov : overlapsB a.aggregationBits c.aggregationBits = true :=
      h a (List.mem_cons_self _ _)
    rw [foldInto, if_neg (by simp [hov]), ih (fun b hb => h b (List.mem_cons_of_mem _ hb))]
    rfl

/-! #### Greedy accumulation over a partition -/

theorem covered_foldl (g : List Attestation) (accs : List Attestation) (i : Nat) :
    covered (g.foldl foldInto accs) i ↔ covered accs i ∨ covered g i := by
  induction g generalizing accs with
  | nil =>
    simp only [List.foldl_nil]
    have := covered_nil i
    tauto
  | cons c t ih =>
    rw [List.foldl_cons, ih, covered_foldInto, covered_cons]
    tauto

theorem covered_aggregateGroup (g : List Attestation) (i : Nat) :
    covered (aggregateGroup g) i ↔ covered g i := by
  rw [aggregateGroup, covered_foldl]
  have := covered_nil i
  tauto

theorem homog_foldl {g accs : List Attestation} {k : Nat × Nat}
    (hacc : ∀ x ∈ accs, attKey x = k) (hg : ∀ c ∈ g, attKey c = k) :
    ∀ x ∈ g.foldl foldInto accs, attKey x = k := by
  induction g generalizing accs with
  | nil => exact hacc
  | cons c t ih =>
    rw [List.foldl_cons]
    exact ih (homog_foldInto hacc (hg c (List.mem_cons_self _ _)))
      (fun y hy => hg y (List.mem_cons_of_mem _ hy))

theorem homog_aggregateGroup {g : List Attestation} {k : Nat × Nat}
    (hg : ∀ c ∈ g, attKey c = k) :
    ∀ x ∈ aggregateGroup g, attKey x = k := by
  rw [aggregateGroup]
  exact homog_foldl (fun x hx => absurd hx (List.not_mem_nil x)) hg

theorem pairwise_ovl_foldl {g accs : List Attestation} {k : Nat × Nat}
    (hacc : ∀ x ∈ accs, attKey x = k) (hg : ∀ c ∈ g, attKey c = k)
    (hpw : accs.Pairwise ovl) : (g.foldl foldInto accs).Pairwise ovl := by
  induction g generalizing accs with
  | nil => exact hpw
  | cons c t ih =>
    rw [List.foldl_cons]
    exact ih (homog_foldInto hacc (hg c (List.mem_cons_self _ _)))
      (fun y hy => hg y (List.mem_cons_of_mem _ hy))
      (pairwise_ovl_foldInto hacc (hg c (List.mem_cons_self _ _)) hpw)

theorem pairwise_ovl_aggregateGroup {g : List Attestation} {k : Nat × Nat}
    (hg : ∀ c ∈ g, attKey c = k) : (aggregateGroup g).Pairwise ovl := by
  rw [aggregateGroup]
  exact pairwise_ovl_foldl (fun x hx => absurd hx (List.not_mem_nil x)) hg List.Pairwise.nil

theorem foldl_ne_nil (g : List Attestation) (accs : List Attestation)
    (hne : accs ≠ []) : g.foldl foldInto accs ≠ [] := by
  induction g generalizing accs with
  | nil => exact hne
  | cons c t ih =>
    rw [List.foldl_cons]
    exact ih _ (foldInto_ne_nil accs c)

theorem aggregateGroup_ne_nil {g : List Attestation} (hne : g ≠ []) :
    aggregateGroup g ≠ [] := by
  cases g with
  | nil => exact absurd rfl hne
  | cons c t =>
    rw [aggregateGroup, List.foldl_cons]
    exact foldl_ne_nil t _ (foldInto_ne_nil [] c)

theorem foldl_stable {g accs : List Attestation}
    (hov : ∀ c ∈ g, ∀ a ∈ accs, ovl a c) (hpw : g.Pairwise ovl) :
    g.foldl foldInto accs = accs ++ g := by
  induction g generalizing accs with
  | nil => simp
  | cons c t ih =>
    rcases List.pairwise_cons.mp hpw with ⟨hct, htpw⟩
    rw [List.foldl_cons, foldInto_all_overlap (hov c (List.mem_cons_self _ _))]
    rw [ih ?hov htpw]
    · simp
    case hov =>
      intro c' hc' a ha
      rcases List.mem_append.mp ha with ha | ha
      · exact hov c' (List.mem_cons_of_mem _ hc') a ha
      · rcases List.mem_singleton.mp ha with rfl
        exact hct c' hc'

theorem aggregateGroup_stable {g : List Attestation} (hpw : g.Pairwise ovl) :
    aggregateGroup g = g := by
  rw [aggregateGroup, foldl_stable (fun c _ a ha => absurd ha (List.not_mem_nil a)) hpw]
  simp

/-! #### Popcount and maximality -/

theorem subsetB_cons_iff (a b : Bool) (xs ys : List Bool) :
    subsetB (a :: xs) (b :: ys) = true ↔
      (a = true → b = true) ∧ subsetB xs ys = true := by
  rw [subsetB_iff, subsetB_iff]
  constructor
  · rintro ⟨hlen, hbits⟩
    refine ⟨?_, ?_, ?_⟩
    · intro ha
      have := hbits 0
      rw [getBit_cons_zero, getBit_cons_zero] at this
      exact this ha
    · simpa using hlen
    · intro i hi
      have := hbits (i + 1)
      rw [getBit_cons_succ, getBit_cons_succ] at this
      exact this hi
  · rintro ⟨hhead, hlen, hbits⟩
    refine ⟨by simpa using hlen, ?_⟩
    intro i
    cases i with
    | zero =>
      rw [getBit_cons_zero, getBit_cons_zero]
      exact hhead
    | succ n =>
      rw [getBit_cons_succ, getBit_cons_succ]
      exact hbits n

theorem popcount_le_of_subset {x y : List Bool} (h : subsetB x y = true) :
    popcount x ≤ popcount y := by
  induction x generalizing y with
  | nil => simp [popcount]
  | cons a xs ih =>
    cases y with
    | nil =>
      have := ((subsetB_iff _ _).mp h).1
      simp at this
    | cons b ys =>
      rcases (subsetB_cons_iff a b xs ys).mp h with ⟨hhead, htl⟩
      have := ih htl
      cases a with
      | false =>
        cases b <;> simp [popcount, List.count_cons] at * <;> omega
      | true =>
        rw [hhead rfl]
        simp [popcount, List.count_cons] at *
        omega

theorem popcount_lt_of_properSub {x y : List Bool} (h : properSubB x y = true) :
    popcount x < popcount y := by
  induction x generalizing y with
  | nil =>
    rcases Bool.and_eq_true _ _ |>.mp h with ⟨hsub, hne⟩
    have hlen := ((subsetB_iff _ _).mp hsub).1
    cases y with
    | nil => simp at hne
    | cons b ys => simp at hlen
  | cons a xs ih =>
    rcases Bool.and_eq_true _ _ |>.mp h with ⟨hsub, hne⟩
    cases y with
    | nil =>
      have := ((subsetB_iff _ _).mp hsub).1
      simp at this
    | cons b ys =>
      rcases (subsetB_cons_iff a b xs ys).mp hsub with ⟨hhead, htl⟩
      cases a with
      | true =>
        rw [hhead rfl] at hne ⊢
        have hxs : xs ≠ ys := by
          intro hcon
          rw [hcon] at hne
          simp at hne
        have := @ih ys (by simp [properSubB, htl, hxs])
        simp only [popcount, List.count_cons] at this ⊢
        omega
      | false =>
        cases b with
        | false =>
          have hxs : xs ≠ ys := by
            intro hcon
            rw [hcon] at hne
            simp at hne
          have := @ih ys (by simp [properSubB, htl, hxs])
          simpa [popcount, List.count_cons] using this
        | true =>
          have := popcount_le_of_subset htl
          simp [popcount, List.count_cons] at this ⊢
          omega

theorem exists_max_popcount (l : List Attestation) (hne : l ≠ []) :
    ∃ m ∈ l, ∀ x ∈ l, popcount x.aggregationBits ≤ popcount m.aggregationBits := by
  induction l with
  | nil => exact absurd rfl hne
  | cons a t ih =>
    cases t with
    | nil =>
      refine ⟨a, List.mem_cons_self _ _, ?_⟩
      intro x hx
      rcases List.mem_singleton.mp hx with rfl
      exact Nat.le_refl _
    | cons b t' =>
      obtain ⟨m, hm, hmax⟩ := ih (by simp)
      by_cases hc : popcount m.aggregationBits ≤ popcount a.aggregationBits
      · refine ⟨a, List.mem_cons_self _ _, ?_⟩
        intro x hx
        rcases List.mem_cons.mp hx with rfl | hx
        · exact Nat.le_refl _
        · exact Nat.le_trans (hmax x hx) hc
      · refine ⟨m, List.mem_cons_of_mem _ hm, ?_⟩
        intro x hx
        rcases List.mem_cons.mp hx with rfl | hx
        · exact Nat.le_of_lt (Nat.lt_of_not_le hc)
        · exact hmax x hx

/-! #### Subsumption pass lemmas -/

theorem mem_subsumePass_iff {l : List Attestation} {x : Attestation} :
    x ∈ subsumePass l ↔ x ∈ l ∧
      ∀ b ∈ l, properSubB x.aggregationBits b.aggregationBits = false := by
  unfold subsumePass
  rw [List.mem_filter]
  constructor
  · rintro ⟨hx, hall⟩
    refine ⟨hx, ?_⟩
    intro b hb
    rcases hps : properSubB x.aggregationBits b.aggregationBits with _ | _
    · rfl
    · exfalso
      have : l.any (fun b => properSubB x.aggregationBits b.aggregationBits) = true :=
        List.any_eq_true.mpr ⟨b, hb, hps⟩
      rw [this] at hall
      cases hall
  · rintro ⟨hx, hall⟩
    refine ⟨hx, ?_⟩
    rcases hany : l.any (fun b => properSubB x.aggregationBits b.aggregationBits) with _ | _
    · rfl
    · obtain ⟨b, hb, hps⟩ := List.any_eq_true.mp hany
      rw [hall b hb] at hps
      cases hps

theorem subsumePass_sublist (l : List Attestation) : (subsumePass l).Sublist l :=
  List.filter_sublist _

theorem exists_dominator (l : List Attestation) (a : Attestation) (ha : a ∈ l) :
    ∃ b ∈ subsumePass l, subsetB a.aggregationBits b.aggregationBits = true := by
  classical
  set S := l.filter (fun b => subsetB a.aggregationBits b.aggregationBits) with hS
  have haS : a ∈ S := by
    rw [hS, List.mem_filter]
    exact ⟨ha, subsetB_refl _⟩
  obtain ⟨m, hmS, hmax⟩ := exists_max_popcount S (by intro hcon; rw [hcon] at haS; cases haS)
  rcases List.mem_filter.mp hmS with ⟨hml, hsub⟩
  refine ⟨m, ?_, hsub⟩
  rw [mem_subsumePass_iff]
  refine ⟨hml, ?_⟩
  intro b hb
  rcases hps : properSubB m.aggregationBits b.aggregationBits with _ | _
  · rfl
  · exfalso
    have hbS : b ∈ S := by
      rw [hS, List.mem_filter]
      rcases Bool.and_eq_true _ _ |>.mp hps with ⟨hmb, _⟩
      exact ⟨hb, subsetB_trans hsub hmb⟩
    have h1 := hmax b hbS
    have h2 := popcount_lt_of_properSub hps
    omega

theorem subsumePass_eq_self {l : List Attestation}
    (h : ∀ a ∈ l, ∀ b ∈ l, properSubB a.aggregationBits b.aggregationBits = false) :
    subsumePass l = l := by
  unfold subsumePass
  rw [List.filter_eq_self]
  intro a ha
  rcases hany : l.any (fun b => properSubB a.aggregationBits b.aggregationBits) with _ | _
  · rfl
  · obtain ⟨b, hb, hps⟩ := List.any_eq_true.mp hany
    rw [h a ha b hb] at hps
    cases hps

/-! #### Deduplication pass lemmas -/

theorem dedupPass_sublist (l : List Attestation) : (dedupPass l).Sublist l := by
  induction l with
  | nil => exact List.Sublist.refl _
  | cons a rest ih =>
    rw [dedupPass]
    by_cases hany : rest.any (fun b => b.aggregationBits == a.aggregationBits)
    · rw [if_pos hany]
      exact ih.trans (List.sublist_cons_self _ _)
    · rw [if_neg hany]
      exact ih.cons₂ a

theorem exists_same_bits_dedupPass (l : List Attestation) :
    ∀ a ∈ l, ∃ b ∈ dedupPass l, b.aggregationBits = a.aggregationBits := by
  induction l with
  | nil =>
    intro a ha
    cases ha
  | cons hd rest ih =>
    intro a ha
    rw [dedupPass]
    by_cases hany : rest.any (fun b => b.aggregationBits == hd.aggregationBits)
    · rw [if_pos hany]
      rcases List.mem_cons.mp ha with rfl | ha
      · obtain ⟨b, hb, hbeq⟩ := List.any_eq_true.mp hany
        obtain ⟨c, hc, hceq⟩ := ih b hb
        exact ⟨c, hc, hceq.trans (beq_iff_eq.mp hbeq)⟩
      · exact ih a ha
    · rw [if_neg hany]
      rcases List.mem_cons.mp ha with rfl | ha
      · exact ⟨a, List.mem_cons_self _ _, rfl⟩
      · obtain ⟨c, hc, hceq⟩ := ih a ha
        exact ⟨c, List.mem_cons_of_mem _ hc, hceq⟩

theorem pairwise_bits_ne_dedupPass (l : List Attestation) :
    (dedupPass l).Pairwise (fun x y => x.aggregationBits ≠ y.aggregationBits) := by
  induction l with
  | nil => exact List.Pairwise.nil
  | cons hd rest ih =>
    rw [dedupPass]
    by_cases hany : rest.any (fun b => b.aggregationBits == hd.aggregationBits)
    · rw [if_pos hany]
      exact ih
    · rw [if_neg hany]
      refine List.pairwise_cons.mpr ⟨?_, ih⟩
      intro b hb
      have hbrest : b ∈ rest := (dedupPass_sublist rest).mem hb
      intro hcon
      have : rest.any (fun b => b.aggregationBits == hd.aggregationBits) = true :=
        List.any_eq_true.mpr ⟨b, hbrest, by rw [← hcon]; exact beq_self_eq_true _⟩
      exact hany this

theorem dedupPass_eq_self {l : List Attestation}
    (h : l.Pairwise (fun x y => x.aggregationBits ≠ y.aggregationBits)) :
    dedupPass l = l := by
  induction l with
  | nil => rfl
  | cons hd rest ih =>
    rcases List.pairwise_cons.mp h with ⟨hhd, hrest⟩
    rw [dedupPass]
    rw [if_neg ?hn, ih hrest]
    case hn =>
      intro hany
      obtain ⟨b, hb, hbeq⟩ := List.any_eq_true.mp hany
      exact hhd b hb (beq_iff_eq.mp hbeq).symm

/-! #### Partition lemmas -/

theorem mem_filter_key {atts : List Attestation} {k : Nat × Nat} {a : Attestation} :
    a ∈ atts.filter (fun x => attKey x == k) ↔ a ∈ atts ∧ attKey a = k := by
  rw [List.mem_filter]
  simp

theorem covered_flatten (L : List (List Attestation)) (i : Nat) :
    covered L.flatten i ↔ ∃ b ∈ L, covered b i := by
  constructor
  · rintro ⟨a, ha, hbit⟩
    obtain ⟨b, hb, hab⟩ := List.mem_flatten.mp ha
    exact ⟨b, hb, a, hab, hbit⟩
  · rintro ⟨b, hb, a, hab, hbit⟩
    exact ⟨a, List.mem_flatten.mpr ⟨b, hb, hab⟩, hbit⟩

theorem covered_prune (l : List Attestation) (i : Nat) :
    covered (dedupPass (subsumePass l)) i ↔ covered l i := by
  constructor
  · rintro ⟨a, ha, hbit⟩
    exact ⟨a, (subsumePass_sublist l).mem ((dedupPass_sublist _).mem ha), hbit⟩
  · rintro ⟨a, ha, hbit⟩
    obtain ⟨m, hm, hsub⟩ := exists_dominator l a ha
    obtain ⟨b, hb, hbits⟩ := exists_same_bits_dedupPass (subsumePass l) m hm
    refine ⟨b, hb, ?_⟩
    rw [hbits]
    exact ((subsetB_iff _ _).mp hsub).2 i hbit

theorem covered_aggregateAttestations (atts : List Attestation) (i : Nat) :
    covered (AggregateAttestations atts) i ↔ covered atts i := by
  rw [AggregateAttestations, covered_flatten]
  constructor
  · rintro ⟨b, hb, hcov⟩
    obtain ⟨k, hk, rfl⟩ := List.mem_map.mp hb
    rw [covered_prune, covered_aggregateGroup] at hcov
    obtain ⟨a, ha, hbit⟩ := hcov
    exact ⟨a, (mem_filter_key.mp ha).1, hbit⟩
  · rintro ⟨a, ha, hbit⟩
    refine ⟨dedupPass (subsumePass (aggregateGroup
      (atts.filter (fun x => attKey x == attKey a)))), ?_, ?_⟩
    · exact List.mem_map.mpr ⟨attKey a, List.mem_dedup.mpr (List.mem_map.mpr ⟨a, ha, rfl⟩), rfl⟩
    · rw [covered_prune, covered_aggregateGroup]
      exact ⟨a, mem_filter_key.mpr ⟨ha, rfl⟩, hbit⟩

/-! #### The singleton-bit scenario (test helper bitlistsWithSingleBitSet) -/

/-- Modelled from the test helper bitlistsWithSingleBitSet: an n-bit vector
with exactly bit `i` set. -/
def unitBits (n i : Nat) : List Bool :=
  (List.range n).map (fun j => decide (j = i))

/-- The n singleton attestations, one per bit of an n-bit vector, sharing
vote data `d`, with arbitrary per-index signatures. -/
def singletonAtts (n d : Nat) (sg : Nat → List Nat) : List Attestation :=
  (List.range n).map (fun i => ⟨d, unitBits n i, sg i⟩)

/-- The n-bit pattern whose first k bits are set. -/
def stepBits (n k : Nat) : List Bool :=
  (List.range n).map (fun j => decide (j < k))

theorem getBit_mapRange (f : Nat → Bool) (n j : Nat) :
    getBit ((List.range n).map f) j = if j < n then f j else false := by
  by_cases hj : j < n
  · rw [if_pos hj, getBit, List.getD_eq_getElem?_getD, List.getElem?_map,
      List.getElem?_range hj]
    rfl
  · rw [if_neg hj]
    apply getBit_eq_false_of_le
    simpa using Nat.le_of_not_lt hj

theorem length_unitBits (n i : Nat) : (unitBits n i).length = n := by
  simp [unitBits]

theorem length_stepBits (n k : Nat) : (stepBits n k).length = n := by
  simp [stepBits]

theorem unitBits_zero_eq_step (n : Nat) : unitBits n 0 = stepBits n 1 :=
  List.map_congr_left (fun j _ => decide_eq_decide.mpr (by omega))

theorem stepBits_or_unit (n k : Nat) :
    orBits (stepBits n k) (unitBits n k) = stepBits n (k + 1) := by
  apply bitlist_ext
  · rw [length_orBits _ _ (by rw [length_stepBits, length_unitBits]), length_stepBits,
      length_stepBits]
  · intro j
    rw [getBit_orBits _ _ (by rw [length_stepBits, length_unitBits]) j]
    unfold stepBits unitBits
    rw [getBit_mapRange, getBit_mapRange, getBit_mapRange]
    by_cases hj : j < n
    · rw [if_pos hj, if_pos hj, if_pos hj, ← Bool.decide_or]
      exact decide_eq_decide.mpr (by omega)
    · rw [if_neg hj, if_neg hj, if_neg hj]
      rfl

theorem stepBits_not_overlap_unit (n k : Nat) :
    overlapsB (stepBits n k) (unitBits n k) = false := by
  rcases hov : overlapsB (stepBits n k) (unitBits n k) with _ | _
  · rfl
  · exfalso
    obtain ⟨j, hstep, hunit⟩ := (overlapsB_iff _ _).mp hov
    unfold stepBits at hstep
    unfold unitBits at hunit
    rw [getBit_mapRange] at hstep hunit
    by_cases hj : j < n
    · rw [if_pos hj] at hstep hunit
      have h1 := of_decide_eq_true hstep
      have h2 := of_decide_eq_true hunit
      omega
    · rw [if_neg hj] at hstep
      cases hstep

theorem aggregateGroup_singletons (n d : Nat) (sg : Nat → List Nat) :
    ∀ k, 1 ≤ k → k ≤ n →
      ∃ s, aggregateGroup
          ((List.range k).map (fun i => (⟨d, unitBits n i, sg i⟩ : Attestation))) =
        [⟨d, stepBits n k, s⟩] := by
  intro k
  induction k with
  | zero =>
    intro h1 _
    omega
  | succ k ih =>
    intro _ hkn
    cases Nat.eq_zero_or_pos k with
    | inl hk0 =>
      subst hk0
      refine ⟨sg 0, ?_⟩
      show aggregateGroup [(⟨d, unitBits n 0, sg 0⟩ : Attestation)] = _
      rw [unitBits_zero_eq_step]
      rfl
    | inr hkpos =>
      obtain ⟨s, hs⟩ := ih hkpos (by omega)
      refine ⟨s ++ sg k, ?_⟩
      rw [List.range_succ, List.map_append, aggregateGroup, List.foldl_append, ← aggregateGroup,
        hs]
      show foldInto [(⟨d, stepBits n k, s⟩ : Attestation)] ⟨d, unitBits n k, sg k⟩ = _
      rw [foldInto, if_pos ⟨by rw [length_stepBits, length_unitBits],
        stepBits_not_overlap_unit n k⟩]
      show [(⟨d, orBits (stepBits n k) (unitBits n k), s ++ sg k⟩ : Attestation)] = _
      rw [stepBits_or_unit]

theorem stepBits_full (n : Nat) : stepBits n n = List.replicate n true := by
  rw [List.eq_replicate_iff]
  refine ⟨by simp [stepBits], ?_⟩
  intro b hb
  obtain ⟨j, hj, rfl⟩ := List.mem_map.mp hb
  rw [List.mem_range] at hj
  exact decide_eq_true hj

theorem dedup_replicate_of_pos {α : Type} [DecidableEq α] (k : α) (n : Nat) (h : 1 ≤ n) :
    (List.replicate n k).dedup = [k] := by
  induction n with
  | zero => omega
  | succ n ih =>
    rw [List.replicate_succ]
    cases Nat.eq_zero_or_pos n with
    | inl h0 =>
      subst h0
      rfl
    | inr hpos =>
      rw [List.dedup_cons_of_mem (by simp [List.mem_replicate]; omega), ih hpos]

theorem attKey_singleton (n d : Nat) (sg : Nat → List Nat) :
    ∀ a ∈ singletonAtts n d sg, attKey a = (d, n) := by
  intro a ha
  obtain ⟨i, _, rfl⟩ := List.mem_map.mp ha
  unfold attKey
  rw [length_unitBits]

theorem prune_singleton (a : Attestation) : dedupPass (subsumePass [a]) = [a] := by
  rw [subsumePass_eq_self, dedupPass_eq_self]
  · exact List.pairwise_singleton _ _
  · intro x hx b hb
    rcases List.mem_singleton.mp hx with rfl
    rcases List.mem_singleton.mp hb with rfl
    exact properSubB_irrefl _

theorem aggregateAttestations_singletons (n d : Nat) (sg : Nat → List Nat) (h : 1 ≤ n) :
    ∃ s, AggregateAttestations (singletonAtts n d sg) =
      [⟨d, List.replicate n true, s⟩] := by
  obtain ⟨s, hs⟩ := aggregateGroup_singletons n d sg n h (Nat.le_refl n)
  refine ⟨s, ?_⟩
  rw [AggregateAttestations]
  have hkeys : (singletonAtts n d sg).map attKey = List.replicate n (d, n) := by
    rw [List.eq_replicate_iff]
    refine ⟨by simp [singletonAtts], ?_⟩
    intro b hb
    obtain ⟨a, ha, rfl⟩ := List.mem_map.mp hb
    exact attKey_singleton n d sg a ha
  rw [hkeys, dedup_replicate_of_pos _ n h, List.map_cons, List.map_nil]
  have hfil : (singletonAtts n d sg).filter (fun a => attKey a == (d, n)) =
      singletonAtts n d sg := by
    rw [List.filter_eq_self]
    intro a ha
    rw [attKey_singleton n d sg a ha]
    exact beq_self_eq_true _
  rw [hfil]
  rw [show singletonAtts n d sg =
    (List.range n).map (fun i => (⟨d, unitBits n i, sg i⟩ : Attestation)) from rfl, hs,
    prune_singleton, stepBits_full]
  rfl

/-- C1: the union of participation bits over the attestations returned by
`AggregateAttestations` equals the union of participation bits over the
inputs, and in particular for every positive length n, aggregating the n
singleton attestations that each set one distinct bit of an n-bit vector
yields a single aggregate with all n bits set. -/
theorem aggregateAll_union_and_singletons :
    (∀ atts i, covered (AggregateAttestations atts) i ↔ covered atts i) ∧
    (∀ n d sg, 1 ≤ n → ∃ s, AggregateAttestations (singletonAtts n d sg) =
      [⟨d, List.replicate n true, s⟩]) :=
  ⟨covered_aggregateAttestations, aggregateAttestations_singletons⟩

/-- C1 witness: concrete instances of both parts, at two length-2
attestations and at the three singleton attestations over 3 bits. -/
theorem aggregateAll_union_and_singletons_witness :
    (covered (AggregateAttestations [att0 [true, false], att0 [false, true]]) 1 ↔
      covered [att0 [true, false], att0 [false, true]] 1) ∧
    ∃ s, AggregateAttestations (singletonAtts 3 5 (fun i => [i])) =
      [⟨5, List.replicate 3 true, s⟩] :=
  ⟨aggregateAll_union_and_singletons.1 _ 1,
   aggregateAll_union_and_singletons.2 3 5 _ (by omega)⟩

/-! ### Pairwise aggregation claims -/

/-- C2: pairwise aggregation fails with `DifferentLengths` when the declared
participation lengths differ; fails with `BitsOverlap` when the lengths are
equal and some bit is set in both; and otherwise succeeds with the bitwise
OR of the participations (whose popcount is the sum of the operands'
popcounts), the carried-over data and the aggregated signature. -/
theorem aggregatePair_spec (a b : Attestation) :
    (a.aggregationBits.length ≠ b.aggregationBits.length →
      AggregateAttestation a b = .error .differentLengths) ∧
    (a.aggregationBits.length = b.aggregationBits.length →
      overlapsB a.aggregationBits b.aggregationBits = true →
      AggregateAttestation a b = .error .bitsOverlap) ∧
    (a.aggregationBits.length = b.aggregationBits.length →
      overlapsB a.aggregationBits b.aggregationBits = false →
      AggregateAttestation a b =
        .ok ⟨a.data, orBits a.aggregationBits b.aggregationBits, a.sig ++ b.sig⟩ ∧
      popcount (orBits a.aggregationBits b.aggregationBits) =
        popcount a.aggregationBits + popcount b.aggregationBits) := by
  refine ⟨?_, ?_, ?_⟩
  · intro h
    rw [AggregateAttestation, if_pos h]
  · intro hlen hov
    rw [AggregateAttestation, if_neg (fun hc => hc hlen), if_pos hov]
  · intro hlen hov
    refine ⟨?_, popcount_orBits _ _ hlen hov⟩
    rw [AggregateAttestation, if_neg (fun hc => hc hlen), if_neg (by rw [hov]; simp)]

/-- C2 witness: a length mismatch, an overlap (bit 2 set in both), and a
successful disjoint merge of {0,3} with {1,2,4} over 6 bits whose popcount
is the sum 2 + 3 = 5. -/
theorem aggregatePair_spec_witness :
    AggregateAttestation (att0 [true, false, false, true]) (att0 [true, false]) =
      .error .differentLengths ∧
    AggregateAttestation (att0 [true, false, true]) (att0 [false, true, true]) =
      .error .bitsOverlap ∧
    AggregateAttestation (att0 [true, false, false, true, false, false])
        (att0 [false, true, true, false, true, false]) =
      .ok ⟨0, [true, true, true, true, true, false], []⟩ ∧
    popcount [true, true, true, true, true, false] =
      popcount [true, false, false, true, false, false] +
        popcount [false, true, true, false, true, false] := by
  refine ⟨(aggregatePair_spec _ _).1 (by decide),
          (aggregatePair_spec _ _).2.1 (by decide) (by decide),
          ((aggregatePair_spec _ _).2.2 (by decide) (by decide)).1.trans (by rfl), ?_⟩
  exact ((aggregatePair_spec (att0 [true, false, false, true, false, false])
    (att0 [false, true, true, false, true, false])).2.2 (by decide) (by decide)).2

/-- C10: pairwise aggregation of two attestations whose participation
bit-vectors are both empty succeeds (the degenerate encoding is not
rejected) and returns an attestation whose participation is empty. -/
theorem aggregatePair_empty (a b : Attestation) (ha : a.aggregationBits = [])
    (hb : b.aggregationBits = []) :
    AggregateAttestation a b = .ok ⟨a.data, [], a.sig ++ b.sig⟩ := by
  rw [AggregateAttestation, if_neg (by rw [ha, hb]; simp),
    if_neg (by rw [ha, hb]; simp [overlapsB])]
  rw [ha, hb]
  rfl

/-- C10 witness: two concrete empty-participation attestations aggregate to
an empty-participation attestation. -/
theorem aggregatePair_empty_witness :
    AggregateAttestation ⟨3, [], [7]⟩ ⟨3, [], [9]⟩ = .ok ⟨3, [], [7, 9]⟩ :=
  aggregatePair_empty _ _ rfl rfl

/-! ### Subsumption-freedom of the output (C4) -/

theorem homog_block (atts : List Attestation) (k : Nat × Nat) :
    ∀ x ∈ dedupPass (subsumePass (aggregateGroup
        (atts.filter (fun a => attKey a == k)))), attKey x = k := by
  intro x hx
  have hx' : x ∈ aggregateGroup (atts.filter (fun a => attKey a == k)) :=
    (subsumePass_sublist _).mem ((dedupPass_sublist _).mem hx)
  exact homog_aggregateGroup (fun c hc => (mem_filter_key.mp hc).2) x hx'

theorem no_subset_in_prune {l : List Attestation} {x y : Attestation}
    (hx : x ∈ dedupPass (subsumePass l)) (hy : y ∈ dedupPass (subsumePass l))
    (hne : x.aggregationBits ≠ y.aggregationBits) :
    subsetB x.aggregationBits y.aggregationBits = false ∧
    subsetB y.aggregationBits x.aggregationBits = false := by
  have hxs := (dedupPass_sublist _).mem hx
  have hys := (dedupPass_sublist _).mem hy
  have hxl : x ∈ l := (subsumePass_sublist _).mem hxs
  have hyl : y ∈ l := (subsumePass_sublist _).mem hys
  constructor
  · rcases hsub : subsetB x.aggregationBits y.aggregationBits with _ | _
    · rfl
    · exfalso
      have hps : properSubB x.aggregationBits y.aggregationBits = true := by
        simp [properSubB, hsub, hne]
      have := (mem_subsumePass_iff.mp hxs).2 y hyl
      rw [this] at hps
      cases hps
  · rcases hsub : subsetB y.aggregationBits x.aggregationBits with _ | _
    · rfl
    · exfalso
      have hps : properSubB y.aggregationBits x.aggregationBits = true := by
        simp [properSubB, hsub]
        exact fun hc => hne hc.symm
      have := (mem_subsumePass_iff.mp hys).2 x hxl
      rw [this] at hps
      cases hps

theorem attKey_components {x : Attestation} {k : Nat × Nat} (h : attKey x = k) :
    x.data = k.1 ∧ x.aggregationBits.length = k.2 := by
  unfold attKey at h
  exact ⟨congrArg Prod.fst h, congrArg Prod.snd h⟩

/-- C4: the output of `AggregateAttestations` contains no two distinct
aggregates of the same partition (same vote data, hence same key once the
equal-length requirement of `subsetB` is accounted for) where one's
participation is a subset of the other's: strict subsets are dropped and
identical patterns are deduplicated. -/
theorem aggregateAll_no_subsumption (atts : List Attestation) :
    (AggregateAttestations atts).Pairwise (fun x y => x.data = y.data →
      subsetB x.aggregationBits y.aggregationBits = false ∧
      subsetB y.aggregationBits x.aggregationBits = false) := by
  rw [AggregateAttestations, List.pairwise_flatten]
  constructor
  · intro l' hl'
    obtain ⟨k, _, rfl⟩ := List.mem_map.mp hl'
    have hpw := pairwise_bits_ne_dedupPass
      (subsumePass (aggregateGroup (atts.filter (fun a => attKey a == k))))
    exact List.Pairwise.imp_of_mem
      (fun hx hy hne _ => no_subset_in_prune hx hy hne) hpw
  · rw [List.pairwise_map]
    have hnd : ((atts.map attKey).dedup).Pairwise (· ≠ ·) := List.nodup_dedup _
    refine hnd.imp_of_mem ?_
    intro k1 k2 _ _ hne a ha b hb hdata
    have hka := attKey_components (homog_block atts k1 a ha)
    have hkb := attKey_components (homog_block atts k2 b hb)
    have hlen : a.aggregationBits.length ≠ b.aggregationBits.length := by
      intro hceq
      apply hne
      have h1 : k1.1 = k2.1 := by rw [← hka.1, ← hkb.1, hdata]
      have h2 : k1.2 = k2.2 := by rw [← hka.2, ← hkb.2, hceq]
      exact Prod.ext h1 h2
    exact ⟨subsetB_false_of_length_ne hlen, subsetB_false_of_length_ne (Ne.symm hlen)⟩

/-- C4 witness: the pairwise no-subsumption property at a concrete batch. -/
theorem aggregateAll_no_subsumption_witness :
    (AggregateAttestations
        [att0 [true, false, true], att0 [false, true, true]]).Pairwise
      (fun x y => x.data = y.data →
        subsetB x.aggregationBits y.aggregationBits = false ∧
        subsetB y.aggregationBits x.aggregationBits = false) :=
  aggregateAll_no_subsumption [att0 [true, false, true], att0 [false, true, true]]

/-! ### Partition discipline (C8) -/

theorem flatten_map_singleton (l : List Attestation) :
    (l.map (fun a => [a])).flatten = l := by
  induction l with
  | nil => rfl
  | cons a t ih =>
    simp only [List.map_cons, List.flatten_cons, ih]
    rfl

theorem filter_key_self_of_nodup {atts : List Attestation}
    (hnd : (atts.map attKey).Nodup) :
    ∀ a ∈ atts, atts.filter (fun x => attKey x == attKey a) = [a] := by
  induction atts with
  | nil =>
    intro a ha
    cases ha
  | cons b t ih =>
    intro a ha
    rw [List.map_cons, List.nodup_cons] at hnd
    obtain ⟨hbk, hndt⟩ := hnd
    rcases List.mem_cons.mp ha with rfl | ha
    · rw [List.filter_cons, if_pos (by simp)]
      congr 1
      rw [List.filter_eq_nil_iff]
      intro x hx hcon
      apply hbk
      rw [List.mem_map]
      exact ⟨x, hx, beq_iff_eq.mp hcon⟩
    · rw [List.filter_cons, if_neg ?hn, ih hndt a ha]
      case hn =>
        intro hcon
        apply hbk
        rw [List.mem_map]
        exact ⟨a, ha, (beq_iff_eq.mp hcon).symm⟩

theorem aggregateAll_of_nodup_keys {atts : List Attestation}
    (hnd : (atts.map attKey).Nodup) : AggregateAttestations atts = atts := by
  rw [AggregateAttestations, List.dedup_eq_self.mpr hnd, List.map_map]
  rw [List.map_congr_left (g := fun a => [a]) ?hcongr]
  · exact flatten_map_singleton atts
  case hcongr =>
    intro a ha
    show dedupPass (subsumePass (aggregateGroup
      (atts.filter (fun x => attKey x == attKey a)))) = [a]
    rw [filter_key_self_of_nodup hnd a ha]
    show dedupPass (subsumePass (foldInto [] a)) = [a]
    rw [foldInto]
    exact prune_singleton a

/-- C8: every bit of every output aggregate of `AggregateAttestations` comes
from an input attestation with the same vote data and the same declared
participation length (so attestations with different data or lengths are
never merged together), and a batch whose attestations have pairwise
different participation lengths is returned with every attestation
unchanged. -/
theorem aggregateAll_partition_discipline (atts : List Attestation) :
    (∀ o ∈ AggregateAttestations atts, ∀ i, getBit o.aggregationBits i = true →
      ∃ a ∈ atts, a.data = o.data ∧
        a.aggregationBits.length = o.aggregationBits.length ∧
        getBit a.aggregationBits i = true) ∧
    (atts.Pairwise (fun a b => a.aggregationBits.length ≠ b.aggregationBits.length) →
      AggregateAttestations atts = atts) := by
  constructor
  · intro o ho i hbit
    rw [AggregateAttestations] at ho
    obtain ⟨l', hl', hol⟩ := List.mem_flatten.mp ho
    obtain ⟨k, _, rfl⟩ := List.mem_map.mp hl'
    have hko : attKey o = k := homog_block atts k o hol
    have hcov : covered (dedupPass (subsumePass (aggregateGroup
        (atts.filter (fun a => attKey a == k))))) i := ⟨o, hol, hbit⟩
    rw [covered_prune, covered_aggregateGroup] at hcov
    obtain ⟨a, haf, habit⟩ := hcov
    obtain ⟨ha, hka⟩ := mem_filter_key.mp haf
    have h1 := attKey_components hka
    have h2 := attKey_components hko
    exact ⟨a, ha, h1.1.trans h2.1.symm, h1.2.trans h2.2.symm, habit⟩
  · intro hpair
    apply aggregateAll_of_nodup_keys
    rw [List.Nodup, List.pairwise_map]
    refine hpair.imp ?_
    intro a b hlen hcon
    unfold attKey at hcon
    exact hlen (congrArg Prod.snd hcon)

/-- C8 witness: in the one-attestation batch every output bit traces to the
input, and a two-length batch passes through unchanged. -/
theorem aggregateAll_partition_discipline_witness :
    (∃ a ∈ [att0 [true, false]], a.data = (att0 [true, false]).data ∧
      a.aggregationBits.length = (att0 [true, false]).aggregationBits.length ∧
      getBit a.aggregationBits 0 = true) ∧
    AggregateAttestations [att0 [true], att0 [true, false]] =
      [att0 [true], att0 [true, false]] :=
  ⟨(aggregateAll_partition_discipline [att0 [true, false]]).1
      (att0 [true, false]) (by decide) 0 (by decide),
   (aggregateAll_partition_discipline _).2 (by decide)⟩

/-! ### Idempotence of the batch aggregator (C9) -/

theorem replicate_union {α : Type} [DecidableEq α] (k : α) (t : List α) (m : Nat)
    (hm : 1 ≤ m) (hk : k ∉ t) : (List.replicate m k) ∪ t = k :: t := by
  induction m with
  | zero => omega
  | succ m ih =>
    rw [List.replicate_succ, List.cons_union]
    cases Nat.eq_zero_or_pos m with
    | inl h0 =>
      subst h0
      show List.insert k ((List.replicate 0 k) ∪ t) = k :: t
      rw [show (List.replicate 0 k : List α) ∪ t = t from rfl]
      exact List.insert_of_not_mem hk
    | inr hpos =>
      rw [ih hpos]
      exact List.insert_of_mem (List.mem_cons_self _ _)

theorem dedup_map_key_flatten (ks : List (Nat × Nat)) (G : Nat × Nat → List Attestation)
    (hnd : ks.Nodup) (hne : ∀ k ∈ ks, G k ≠ [])
    (hhom : ∀ k ∈ ks, ∀ x ∈ G k, attKey x = k) :
    (((ks.map G).flatten).map attKey).dedup = ks := by
  induction ks with
  | nil => rfl
  | cons k t ih =>
    rw [List.nodup_cons] at hnd
    obtain ⟨hkt, hndt⟩ := hnd
    rw [List.map_cons, List.flatten_cons, List.map_append, List.dedup_append,
      ih hndt (fun j hj => hne j (List.mem_cons_of_mem _ hj))
        (fun j hj => hhom j (List.mem_cons_of_mem _ hj))]
    have hrep : (G k).map attKey = List.replicate (G k).length k := by
      rw [List.eq_replicate_iff]
      refine ⟨by simp, ?_⟩
      intro b hb
      obtain ⟨x, hx, rfl⟩ := List.mem_map.mp hb
      exact hhom k (List.mem_cons_self _ _) x hx
    rw [hrep]
    exact replicate_union k t (G k).length
      (List.length_pos.mpr (hne k (List.mem_cons_self _ _))) hkt

theorem filter_key_flatten (ks : List (Nat × Nat)) (G : Nat × Nat → List Attestation)
    (hnd : ks.Nodup) (hhom : ∀ k ∈ ks, ∀ x ∈ G k, attKey x = k) (k : Nat × Nat)
    (hk : k ∈ ks) :
    ((ks.map G).flatten).filter (fun x => attKey x == k) = G k := by
  induction ks with
  | nil => cases hk
  | cons j t ih =>
    rw [List.nodup_cons] at hnd
    obtain ⟨hjt, hndt⟩ := hnd
    rw [List.map_cons, List.flatten_cons, List.filter_append]
    rcases List.mem_cons.mp hk with rfl | hkt
    · have h1 : (G k).filter (fun x => attKey x == k) = G k := by
        rw [List.filter_eq_self]
        intro x hx
        rw [hhom k (List.mem_cons_self _ _) x hx]
        exact beq_self_eq_true _
      have h2 : ((t.map G).flatten).filter (fun x => attKey x == k) = [] := by
        rw [List.filter_eq_nil_iff]
        intro x hx hcon
        obtain ⟨l', hl', hxl⟩ := List.mem_flatten.mp hx
        obtain ⟨j', hj', rfl⟩ := List.mem_map.mp hl'
        apply hjt
        have hxk := hhom j' (List.mem_cons_of_mem _ hj') x hxl
        rw [show k = j' from (beq_iff_eq.mp hcon).symm.trans hxk]
        exact hj'
      rw [h1, h2, List.append_nil]
    · have h1 : (G j).filter (fun x => attKey x == k) = [] := by
        rw [List.filter_eq_nil_iff]
        intro x hx hcon
        apply hjt
        have hxj := hhom j (List.mem_cons_self _ _) x hx
        rw [show j = k from hxj.symm.trans (beq_iff_eq.mp hcon)]
        exact hkt
      rw [h1, List.nil_append]
      exact ih hndt (fun j' hj' => hhom j' (List.mem_cons_of_mem _ hj')) hkt

theorem prune_aggregate_stable {B : List Attestation}
    (hovl : B.Pairwise ovl)
    (hne : B.Pairwise (fun x y => x.aggregationBits ≠ y.aggregationBits))
    (hnp : ∀ a ∈ B, ∀ b ∈ B, properSubB a.aggregationBits b.aggregationBits = false) :
    dedupPass (subsumePass (aggregateGroup B)) = B := by
  rw [aggregateGroup_stable hovl, subsumePass_eq_self hnp, dedupPass_eq_self hne]

theorem block_ne_nil (atts : List Attestation) (k : Nat × Nat)
    (hk : k ∈ (atts.map attKey).dedup) :
    dedupPass (subsumePass (aggregateGroup
      (atts.filter (fun a => attKey a == k)))) ≠ [] := by
  obtain ⟨a, ha, hka⟩ := List.mem_map.mp (List.mem_dedup.mp hk)
  have hafil : a ∈ atts.filter (fun x => attKey x == k) :=
    mem_filter_key.mpr ⟨ha, hka⟩
  obtain ⟨x, hx⟩ := List.exists_mem_of_ne_nil _
    (aggregateGroup_ne_nil (List.ne_nil_of_mem hafil))
  obtain ⟨m, hm, _⟩ := exists_dominator _ x hx
  obtain ⟨b, hb, _⟩ := exists_same_bits_dedupPass _ m hm
  exact List.ne_nil_of_mem hb

theorem block_pairwise_ovl (atts : List Attestation) (k : Nat × Nat) :
    (dedupPass (subsumePass (aggregateGroup
      (atts.filter (fun a => attKey a == k))))).Pairwise ovl := by
  have h1 : (aggregateGroup (atts.filter (fun a => attKey a == k))).Pairwise ovl :=
    pairwise_ovl_aggregateGroup (fun c hc => (mem_filter_key.mp hc).2)
  exact h1.sublist ((dedupPass_sublist _).trans (subsumePass_sublist _))

theorem block_no_properSub (atts : List Attestation) (k : Nat × Nat) :
    ∀ a ∈ dedupPass (subsumePass (aggregateGroup
        (atts.filter (fun x => attKey x == k)))),
      ∀ b ∈ dedupPass (subsumePass (aggregateGroup
        (atts.filter (fun x => attKey x == k)))),
      properSubB a.aggregationBits b.aggregationBits = false := by
  intro a ha b hb
  have has : a ∈ subsumePass (aggregateGroup (atts.filter (fun x => attKey x == k))) :=
    (dedupPass_sublist _).mem ha
  have hbl : b ∈ aggregateGroup (atts.filter (fun x => attKey x == k)) :=
    (subsumePass_sublist _).mem ((dedupPass_sublist _).mem hb)
  exact (mem_subsumePass_iff.mp has).2 b hbl

/-- C9: `AggregateAttestations` is idempotent on its own output: re-running
it on the returned aggregates yields the same list of aggregates, including
when the returned aggregates mutually overlap. -/
theorem aggregateAll_idempotent (atts : List Attestation) :
    AggregateAttestations (AggregateAttestations atts) =
      AggregateAttestations atts := by
  have hnd : ((atts.map attKey).dedup).Nodup := List.nodup_dedup _
  have hhom : ∀ k ∈ (atts.map attKey).dedup,
      ∀ x ∈ dedupPass (subsumePass (aggregateGroup
        (atts.filter (fun a => attKey a == k)))), attKey x = k :=
    fun k _ => homog_block atts k
  have hne : ∀ k ∈ (atts.map attKey).dedup,
      dedupPass (subsumePass (aggregateGroup
        (atts.filter (fun a => attKey a == k)))) ≠ [] :=
    block_ne_nil atts
  show AggregateAttestations ((((atts.map attKey).dedup).map (fun k =>
      dedupPass (subsumePass (aggregateGroup
        (atts.filter (fun a => attKey a == k)))))).flatten) =
    (((atts.map attKey).dedup).map (fun k =>
      dedupPass (subsumePass (aggregateGroup
        (atts.filter (fun a => attKey a == k)))))).flatten
  rw [AggregateAttestations, dedup_map_key_flatten _ _ hnd hne hhom,
    List.map_congr_left ?hcongr]
  case hcongr =>
    intro k hk
    rw [filter_key_flatten _ _ hnd hhom k hk]
    exact prune_aggregate_stable (block_pairwise_ovl atts k)
      (pairwise_bits_ne_dedupPass _) (block_no_properSub atts k)

/-- C9 witness: idempotence at a concrete batch whose two outputs mutually
overlap. -/
theorem aggregateAll_idempotent_witness :
    AggregateAttestations (AggregateAttestations
      [att0 [true, false, true], att0 [false, true, true]]) =
      AggregateAttestations [att0 [true, false, true], att0 [false, true, true]] :=
  aggregateAll_idempotent [att0 [true, false, true], att0 [false, true, true]]

end Prysm
